import Mathlib

/-!
# esp32s3_tpkb: keyboard matrix scanner and trackpoint driver

A shallow embedding of `keyboard_task` (keyboard.c) and of `init_trackpoint` /
`poll_trackpoint` (trackpoint.c), with the properties of the design document
stated over it.

Conventions of the embedding

* `uint8_t` / `uint16_t` / `uint32_t` values are `Nat` with an explicit `% 2^w`
  where the C code can truncate; `int8_t` values are `Int` wrapped by `toInt8`.
* `uint64_t hid` is represented by the eight bytes `hidbuf[0..7]` that the code
  aliases it with: `hid = 0` is the all-zero list and `hid != lasthid` is list
  inequality.
* GPIO reads are inputs: one reading per place where the code calls
  `gpio_get_level`.
* `keymap.h` is not part of the sources, so the lookups `search_hid_key`,
  `search_fn` and the key-code constants are parameters (`Keymap`).
-/

namespace Keyboard

/-! ## keyboard.c -/

def COL_NUM : Nat := 8
def ROW_NUM : Nat := 16

/-- The two fields of a `fn_keytable_t` entry that `keyboard_task` reads. -/
structure fn_keytable_t where
  hidcode : Nat
  fncode : Nat
deriving DecidableEq, Repr

/-- What `keyboard_task` uses from `keymap.h`: the two table lookups and the
key-code constants it compares against. -/
structure Keymap where
  search_hid_key : Nat → Nat → Int
  search_fn : Nat → Nat → Option fn_keytable_t
  KEY_LEFTCTRL : Int
  KEY_RIGHTMETA : Int
  KEY_F1 : Int
  KEY_F12 : Int
  FN_NOP : Nat

/-- The GPIO readings of one scan cycle. `row_level col row` is
`gpio_get_level(rowscan_pins[row])` while column `col` is selected (0 = active);
`BUTTON_FN_STATE col row` is the Fn button level read while the key at
`(col,row)` is handled (0 = held); `is_usb_connected` is the connectivity flag. -/
structure ScanInput where
  row_level : Nat → Nat → Nat
  BUTTON_FN_STATE : Nat → Nat → Nat
  is_usb_connected : Bool

/-- The locals of one `while (1)` iteration that the column loop carries. -/
structure Scan where
  is_key_pressed : Bool
  hid : List Nat
  nr_hidkey : Nat
  hotkey : Nat
  fnfunc : Nat
  has_phantom_key : Bool
  rows_connected : Nat
deriving DecidableEq, Repr

/-- The value `hid = 0` seen through `hidbuf`. -/
def hid_zero : List Nat := [0, 0, 0, 0, 0, 0, 0, 0]

/-- The locals as initialised at the top of the loop body (lines 65-72). -/
def scan_init (km : Keymap) : Scan :=
  { is_key_pressed := false, hid := hid_zero, nr_hidkey := 0, hotkey := 0,
    fnfunc := km.FN_NOP, has_phantom_key := false, rows_connected := 0 }

/-- Lines 82-125: the handling of one active coordinate. -/
def key_step (km : Keymap) (is_fn_locked : Bool) (inp : ScanInput)
    (col row : Nat) (s : Scan) : Scan :=
  let hidkey := km.search_hid_key col row
  if hidkey > 0 then
    if inp.BUTTON_FN_STATE col row ≠ 0 then
      if hidkey ≥ km.KEY_LEFTCTRL ∧ hidkey ≤ km.KEY_RIGHTMETA then
        { s with hid := s.hid.set 0 ((s.hid.getD 0 0 ||| (1 <<< (hidkey.toNat &&& 7))) % 256) }
      else if is_fn_locked = true ∧ hidkey ≥ km.KEY_F1 ∧ hidkey ≤ km.KEY_F12 then
        match km.search_fn col row with
        | some fnitem =>
          { s with is_key_pressed := true, hotkey := fnitem.hidcode % 65536,
                   fnfunc := fnitem.fncode, hid := hid_zero }
        | none => s
      else if s.nr_hidkey < 6 then
        { s with hid := s.hid.set (2 + s.nr_hidkey) (hidkey.toNat % 256),
                 nr_hidkey := s.nr_hidkey + 1, is_key_pressed := true, hotkey := 0 }
      else s
    else
      if is_fn_locked = true ∧ hidkey ≥ km.KEY_F1 ∧ hidkey ≤ km.KEY_F12 then
        if s.is_key_pressed = false then
          { s with hid := s.hid.set 2 (hidkey.toNat % 256), is_key_pressed := true, hotkey := 0 }
        else s
      else
        match km.search_fn col row with
        | some fnitem =>
          if s.nr_hidkey < 6 then
            { s with hid := s.hid.set (2 + s.nr_hidkey) (fnitem.fncode % 256),
                     nr_hidkey := s.nr_hidkey + 1, is_key_pressed := true, hotkey := 0 }
          else s
        | none => s
  else s

/-- Lines 80-126: one iteration of the row loop; the second component is
`rows_cur_col`. -/
def scan_row (km : Keymap) (is_fn_locked : Bool) (inp : ScanInput) (col : Nat)
    (acc : Scan × Nat) (row : Nat) : Scan × Nat :=
  if inp.row_level col row = 0 then
    (key_step km is_fn_locked inp col row acc.1, acc.2 ||| (1 <<< row))
  else acc

/-- The test `x & (x - 1)` on a `uint32_t`. -/
def more_than_one_bit (x : Nat) : Bool :=
  x &&& ((x + 4294967295) % 4294967296) != 0

/-- Lines 77-133: one iteration of the column loop. -/
def scan_col (km : Keymap) (is_fn_locked : Bool) (inp : ScanInput)
    (s : Scan) (col : Nat) : Scan :=
  let r := (List.range ROW_NUM).foldl (scan_row km is_fn_locked inp col) (s, 0)
  let rows_cur_col := r.2
  let rows_connected_again := rows_cur_col &&& r.1.rows_connected
  { r.1 with
    has_phantom_key := if more_than_one_bit rows_connected_again then true
                       else r.1.has_phantom_key,
    rows_connected := r.1.rows_connected ||| rows_cur_col }

/-- Lines 65-135: the locals after the column loop. -/
def scan (km : Keymap) (is_fn_locked : Bool) (inp : ScanInput) : Scan :=
  (List.range COL_NUM).foldl (scan_col km is_fn_locked inp) (scan_init km)

/-- The variables of `keyboard_task` that live across cycles, with the
file-level latch `is_fn_locked`. -/
structure KbState where
  is_fn_locked : Bool
  last_is_key_pressed : Bool
  lasthid : List Nat
  lasthotkey : Nat
  lastfnfunc : Nat
deriving DecidableEq, Repr

/-- The state at the first cycle (lines 25, 55-58). -/
def kb_init (km : Keymap) : KbState :=
  { is_fn_locked := false, last_is_key_pressed := false, lasthid := hid_zero,
    lasthotkey := 0, lastfnfunc := km.FN_NOP }

/-- The decoded result of a cycle: `hid`, `hotkey`, `fnfunc`, `is_key_pressed`
as they stand at line 142. -/
structure Decoded where
  hid : List Nat
  hotkey : Nat
  fnfunc : Nat
  is_key_pressed : Bool
deriving DecidableEq, Repr

/-- The previous cycle's decoded values, as the carried state holds them. -/
def previous (st : KbState) : Decoded :=
  { hid := st.lasthid, hotkey := st.lasthotkey, fnfunc := st.lastfnfunc,
    is_key_pressed := st.last_is_key_pressed }

/-- Lines 65-141: scan, then the phantom freeze (lines 136-141). -/
def decode (km : Keymap) (st : KbState) (inp : ScanInput) : Decoded :=
  let s := scan km st.is_fn_locked inp
  if s.has_phantom_key then previous st
  else
    { hid := s.hid, hotkey := s.hotkey, fnfunc := s.fnfunc,
      is_key_pressed := s.is_key_pressed }

/-- What a cycle hands to the outside: the two USB reports and the local hook. -/
inductive KbEvent where
  | keyboard_report (hidbuf : List Nat)
  | consumer_report (hotkey : Nat)
  | do_fnfunc (fncode : Nat)
deriving DecidableEq, Repr

/-- One iteration of `while (1)` in `keyboard_task` (lines 59-165). `do_fnfunc`
has an empty body, so the latch `is_fn_locked` is carried over unchanged. -/
def keyboard_cycle (km : Keymap) (st : KbState) (inp : ScanInput) :
    KbState × List KbEvent :=
  if inp.is_usb_connected = false then (st, [])
  else
    let d := decode km st inp
    let e1 := if d.hid ≠ st.lasthid then
                (if inp.is_usb_connected then [KbEvent.keyboard_report d.hid] else [])
              else []
    let e2 := if d.hotkey ≠ st.lasthotkey then
                (if inp.is_usb_connected then [KbEvent.consumer_report d.hotkey] else [])
              else []
    let e3 := if d.fnfunc ≠ st.lastfnfunc then [KbEvent.do_fnfunc d.fnfunc] else []
    ({ is_fn_locked := st.is_fn_locked, last_is_key_pressed := d.is_key_pressed,
       lasthid := d.hid, lasthotkey := d.hotkey, lastfnfunc := d.fnfunc },
     e1 ++ e2 ++ e3)

/-- Successive cycles; the result lists the events of each cycle. -/
def run_cycles (km : Keymap) : KbState → List ScanInput → KbState × List (List KbEvent)
  | st, [] => (st, [])
  | st, inp :: rest =>
    let r := keyboard_cycle km st inp
    let rr := run_cycles km r.1 rest
    (rr.1, r.2 :: rr.2)

/-- The keyboard reports among the events of a cycle. -/
def keyboard_reports : List KbEvent → List (List Nat)
  | [] => []
  | KbEvent.keyboard_report h :: rest => h :: keyboard_reports rest
  | _ :: rest => keyboard_reports rest

/-- The consumer reports among the events of a cycle. -/
def consumer_reports : List KbEvent → List Nat
  | [] => []
  | KbEvent.consumer_report h :: rest => h :: consumer_reports rest
  | _ :: rest => consumer_reports rest

/-! ### Vocabulary of the claims -/

/-- A coordinate reads active. -/
def active (inp : ScanInput) (col row : Nat) : Prop := inp.row_level col row = 0

instance (inp : ScanInput) (col row : Nat) : Decidable (active inp col row) := by
  unfold active; infer_instance

/-- The coordinates in the order the loops visit them: columns ascending, rows
ascending within a column. -/
def scan_order : List (Nat × Nat) :=
  (List.range COL_NUM).flatMap (fun c => (List.range ROW_NUM).map (fun r => (c, r)))

/-- A bound key outside the modifier range reads active at `p`. -/
def is_plain_key (km : Keymap) (inp : ScanInput) (p : Nat × Nat) : Bool :=
  decide (inp.row_level p.1 p.2 = 0) && decide (km.search_hid_key p.1 p.2 > 0) &&
    !(decide (km.search_hid_key p.1 p.2 ≥ km.KEY_LEFTCTRL) &&
      decide (km.search_hid_key p.1 p.2 ≤ km.KEY_RIGHTMETA))

/-- The active non-modifier bound keys in scan order. -/
def plain_keys (km : Keymap) (inp : ScanInput) : List (Nat × Nat) :=
  scan_order.filter (is_plain_key km inp)

/-- The byte that a key slot receives for the key at `p`. -/
def key_byte (km : Keymap) (p : Nat × Nat) : Nat :=
  (km.search_hid_key p.1 p.2).toNat % 256

/-- Six slots: the given codes, then zeros. -/
def pad6 (l : List Nat) : List Nat := l ++ List.replicate (6 - l.length) 0

/-- The invariant of the key slots: `ks` lists the bytes of the plain keys met so
far. -/
def slots_inv (s : Scan) (ks : List Nat) : Prop :=
  s.nr_hidkey = min 6 ks.length ∧ ∃ m0 m1, s.hid = m0 :: m1 :: pad6 (ks.take 6)

/-! ### A concrete keymap and concrete scans -/

/-- Modelled from the spec: `search_hid_key` of keymap.h / keymap.c, which is not
among the sources. The lookup walks a table of `(column, row, logical key code)`
and gives the code of the first entry at the coordinate, or "no binding", here
`-1`. -/
def search_hid_key_in (tbl : List (Nat × Nat × Int)) (col row : Nat) : Int :=
  match tbl.find? (fun e => e.1 == col && e.2.1 == row) with
  | some e => e.2.2
  | none => -1

/-- Modelled from the spec: `search_fn` of keymap.h / keymap.c, which is not among
the sources: the first entry of the Fn table at the coordinate, if any. -/
def search_fn_in (tbl : List (Nat × Nat × fn_keytable_t)) (col row : Nat) :
    Option fn_keytable_t :=
  match tbl.find? (fun e => e.1 == col && e.2.1 == row) with
  | some e => some e.2.2
  | none => none

/-- Some rows of `kbtbl` (km_x61 copy.c), the `KEY_` names written as the HID usage
codes they stand for: Esc, F1, g, h, j, k, l, f, semicolon, d, s, a, left shift,
left ctrl. -/
def kbtbl_sample : List (Nat × Nat × Int) :=
  [(0, 10, 0x29), (1, 8, 0x3a), (0, 4, 0x0a), (0, 0, 0x0b), (4, 0, 0x0d), (4, 1, 0x0e),
   (4, 3, 0x0f), (4, 4, 0x09), (4, 5, 0x33), (4, 6, 0x07), (4, 8, 0x16), (4, 10, 0x04),
   (2, 12, 0xe1), (1, 14, 0xe0)]

/-- The two rows of `fntbl` (km_x61 copy.c); `FN_FNLOCK` is taken as 1 and
`KEY_LEFTMETA` is 0xe3. -/
def fntbl_sample : List (Nat × Nat × fn_keytable_t) :=
  [(0, 1, { hidcode := 0, fncode := 1 }), (4, 4, { hidcode := 0, fncode := 0xe3 })]

/-- A keymap over the sample tables. -/
def sample_keymap : Keymap :=
  { search_hid_key := search_hid_key_in kbtbl_sample,
    search_fn := search_fn_in fntbl_sample,
    KEY_LEFTCTRL := 0xe0, KEY_RIGHTMETA := 0xe7, KEY_F1 := 0x3a, KEY_F12 := 0x45,
    FN_NOP := 0 }

/-- A scan in which exactly the listed coordinates read active, the Fn button is
released and the host is connected. -/
def scan_of (pressed : List (Nat × Nat)) : ScanInput :=
  { row_level := (fun c r => if (c, r) ∈ pressed then 0 else 1),
    BUTTON_FN_STATE := (fun _ _ => 1),
    is_usb_connected := true }

/-- A carried state in which the previous cycle reported the key `a`. -/
def state_holding_a : KbState :=
  { is_fn_locked := false, last_is_key_pressed := true,
    lasthid := [0, 0, 4, 0, 0, 0, 0, 0], lasthotkey := 0, lastfnfunc := 0 }

/-! ### The key decoding on its own -/

/-- The locals `s` with the two phantom-detection locals replaced. -/
def with_phantom (s : Scan) (p : Bool) (rc : Nat) : Scan :=
  { s with has_phantom_key := p, rows_connected := rc }

/-- What the loop body does to the decoding locals at the coordinate `p`: the key
handling when the coordinate reads active, nothing otherwise. -/
def key_fold_step (km : Keymap) (is_fn_locked : Bool) (inp : ScanInput)
    (s : Scan) (p : Nat × Nat) : Scan :=
  if inp.row_level p.1 p.2 = 0 then key_step km is_fn_locked inp p.1 p.2 s else s

/-- The key handling applied along a list of coordinates. -/
def key_fold (km : Keymap) (is_fn_locked : Bool) (inp : ScanInput)
    (ps : List (Nat × Nat)) (s : Scan) : Scan :=
  ps.foldl (key_fold_step km is_fn_locked inp) s

/-- The decoded values held in the locals of a scan, before the phantom freeze. -/
def scan_decoded (s : Scan) : Decoded :=
  { hid := s.hid, hotkey := s.hotkey, fnfunc := s.fnfunc, is_key_pressed := s.is_key_pressed }

/-! ### Phantom condition, hotkey branch: vocabulary -/

/-- Phantom condition as the design document words it: some column `c` has two
distinct active rows `a < b` that are both in the union of the active-row sets of
the columns `0 .. c-1`. -/
def phantom_by_definition (inp : ScanInput) : Prop :=
  ∃ c, c < COL_NUM ∧ ∃ b, b < ROW_NUM ∧ ∃ a, a < b ∧
    inp.row_level c a = 0 ∧ inp.row_level c b = 0 ∧
    (∃ c1, c1 < c ∧ inp.row_level c1 a = 0) ∧ (∃ c2, c2 < c ∧ inp.row_level c2 b = 0)

instance (inp : ScanInput) : Decidable (phantom_by_definition inp) := by
  unfold phantom_by_definition; infer_instance

/-- Row `i` is connected when column `c` is reached: it is in `rows_connected` as
it stood before column `lo`, or it reads active in a column `lo .. c-1`. -/
def connected_before (inp : ScanInput) (rows_connected lo c i : Nat) : Prop :=
  rows_connected.testBit i = true ∨ ∃ c1, lo ≤ c1 ∧ c1 < c ∧ inp.row_level c1 i = 0

/-- The phantom condition over the columns `lo .. lo+n-1`, started with the given
`rows_connected`. -/
def phantom_from (inp : ScanInput) (rows_connected lo n : Nat) : Prop :=
  ∃ c, lo ≤ c ∧ c < lo + n ∧ ∃ b, b < ROW_NUM ∧ ∃ a, a < b ∧
    inp.row_level c a = 0 ∧ inp.row_level c b = 0 ∧
    connected_before inp rows_connected lo c a ∧ connected_before inp rows_connected lo c b

/-- The key at `(c, r)` takes the hotkey branch of the key handling (lines 89-96):
Fn-lock engaged, the coordinate active, the Fn button released, a bound key
outside the modifier range and inside F1..F12 that has an Fn-table entry. -/
def hotkey_hit (km : Keymap) (is_fn_locked : Bool) (inp : ScanInput) (c r : Nat) : Prop :=
  is_fn_locked = true ∧ inp.row_level c r = 0 ∧ km.search_hid_key c r > 0 ∧
  inp.BUTTON_FN_STATE c r ≠ 0 ∧
  ¬ (km.search_hid_key c r ≥ km.KEY_LEFTCTRL ∧ km.search_hid_key c r ≤ km.KEY_RIGHTMETA) ∧
  km.search_hid_key c r ≥ km.KEY_F1 ∧ km.search_hid_key c r ≤ km.KEY_F12 ∧
  km.search_fn c r ≠ none

/-- The coordinate `q` is visited after `p` by the loops. -/
def scanned_after (p q : Nat × Nat) : Prop :=
  p.1 < q.1 ∨ (p.1 = q.1 ∧ p.2 < q.2)

instance (p q : Nat × Nat) : Decidable (scanned_after p q) := by
  unfold scanned_after; infer_instance

/-! ### More concrete keymaps and scans -/

/-- The calls of the hook `do_fnfunc` among the events of a cycle. -/
def fnfunc_calls : List KbEvent → List Nat
  | [] => []
  | KbEvent.do_fnfunc f :: rest => f :: fnfunc_calls rest
  | _ :: rest => fnfunc_calls rest

/-- A scan in which exactly the listed coordinates read active, the Fn button is
held and the host is connected. -/
def scan_fn_of (pressed : List (Nat × Nat)) : ScanInput :=
  { row_level := (fun c r => if (c, r) ∈ pressed then 0 else 1),
    BUTTON_FN_STATE := (fun _ _ => 0),
    is_usb_connected := true }

/-- The sample keymap with the row `{0, 1, 0, KEY_F6}` of `kbtbl` added, the
coordinate of the `FN_FNLOCK` entry of `fntbl`. -/
def fnlock_keymap : Keymap :=
  { search_hid_key := search_hid_key_in ((0, 1, 0x3f) :: kbtbl_sample),
    search_fn := search_fn_in fntbl_sample,
    KEY_LEFTCTRL := 0xe0, KEY_RIGHTMETA := 0xe7, KEY_F1 := 0x3a, KEY_F12 := 0x45,
    FN_NOP := 0 }

/-- A keymap with a consumer hotkey: `h`, left alt, F8, left ctrl and `a` at their
coordinates of `kbtbl`, and the Fn-table row
`{1, 3, KEY_CONSUMER_VOLUME_INCREMENT, FN_NOP}` that `fntbl` keeps as a comment
(consumer usage 0xe9). -/
def hotkey_keymap : Keymap :=
  { search_hid_key :=
      search_hid_key_in
        [(0, 0, 0x0b), (0, 15, 0xe2), (1, 3, 0x41), (1, 14, 0xe0), (4, 10, 0x04)],
    search_fn := search_fn_in [(1, 3, { hidcode := 0xe9, fncode := 0 })],
    KEY_LEFTCTRL := 0xe0, KEY_RIGHTMETA := 0xe7, KEY_F1 := 0x3a, KEY_F12 := 0x45,
    FN_NOP := 0 }

end Keyboard

namespace Trackpoint

/-! ## trackpoint.c -/

def MOUSE_SCALE_MIN : Int := 1

/-- Conversion of an `int` to `int8_t` (wrap modulo 2^8), as the compound
assignments on `dx`, `dy` do. -/
def toInt8 (x : Int) : Int := (x + 128) % 256 - 128

/-! ### init_trackpoint -/

/-- The two bit-banged write routines. -/
inductive Variant where
  | ps2_write_1
  | ps2_write_2
deriving DecidableEq, Repr

/-- One `ps2_write(cmd)` followed by the `ps2_read()` that answers it. -/
structure Exchange where
  variant : Variant
  cmd : Nat
  answer : Nat
deriving DecidableEq, Repr

/-- One pass through the body of the `for` loop (lines 303-324): the exchanges
made, and whether the pass left through `break`. The peripheral is the stream
`resp`: the `i`-th call of `ps2_read` returns `resp i`; `pos` counts the reads
made before the pass. -/
def init_round (ps2_write : Variant) (resp : Nat → Nat) (pos : Nat) : List Exchange × Bool :=
  let e0 : Exchange := { variant := ps2_write, cmd := 0xff, answer := resp pos }
  if e0.answer ≠ 0xfa then ([e0], false) else
  let e1 : Exchange := { variant := ps2_write, cmd := 0xff, answer := resp (pos + 1) }
  if e1.answer ≠ 0xfa then ([e0, e1], false) else
  let e2 : Exchange := { variant := ps2_write, cmd := 0xf3, answer := resp (pos + 2) }
  if e2.answer ≠ 0xfa then ([e0, e1, e2], false) else
  let e3 : Exchange := { variant := ps2_write, cmd := 0x50, answer := resp (pos + 3) }
  if e3.answer ≠ 0xfa then ([e0, e1, e2, e3], false) else
  let e4 : Exchange := { variant := ps2_write, cmd := 0xf4, answer := resp (pos + 4) }
  if e4.answer ≠ 0xfa then ([e0, e1, e2, e3, e4], false) else ([e0, e1, e2, e3, e4], true)

/-- The `for (nrtry = 0; nrtry < 5; nrtry++)` loop with `left = 5 - nrtry` passes
to go: the passes made, each with its exchanges, and the final `nrtry`. -/
def init_loop (ps2_write : Variant) (resp : Nat → Nat) :
    Nat → Nat → Nat → List (List Exchange) × Nat
  | 0, nrtry, _ => ([], nrtry)
  | left + 1, nrtry, pos =>
    let r := init_round ps2_write resp pos
    if r.2 then ([r.1], nrtry)
    else
      let rest := init_loop ps2_write resp left (nrtry + 1) (pos + r.1.length)
      (r.1 :: rest.1, rest.2)

/-- What `init_trackpoint` did: the probing exchange, the variant chosen after
it, the rounds, the final `nrtry`, whether the UART was installed, and
`uart1_fd` on return. -/
structure InitResult where
  probe : Exchange
  ps2_write : Variant
  rounds : List (List Exchange)
  nrtry : Nat
  uart_installed : Bool
  uart1_fd : Int
deriving DecidableEq, Repr

/-- Lines 281-355. `resp` is the stream of bytes that `ps2_read` returns and
`open_fd` is what `open("/dev/uart/1")` would return. -/
def init_trackpoint (resp : Nat → Nat) (open_fd : Int) : InitResult :=
  let probe : Exchange := { variant := Variant.ps2_write_1, cmd := 0xff, answer := resp 0 }
  let ps2_write := if probe.answer ≠ 0xfa then Variant.ps2_write_2 else Variant.ps2_write_1
  let r := init_loop ps2_write resp 5 0 1
  { probe := probe, ps2_write := ps2_write, rounds := r.1, nrtry := r.2,
    uart_installed := decide (r.2 < 5),
    uart1_fd := if r.2 < 5 then open_fd else -1 }

/-- Every write of the run in order, with the routine that made it. -/
def InitResult.writes (r : InitResult) : List (Variant × Nat) :=
  (r.probe.variant, r.probe.cmd) :: r.rounds.flatten.map (fun e => (e.variant, e.cmd))

/-- The command sequence of a round. -/
def init_cmds : List Nat := [0xff, 0xff, 0xf3, 0x50, 0xf4]

/-! ### poll_trackpoint -/

/-- The serial receiver: `rx` is the driver's input queue, which the receive
interrupt fills while the task runs; `wire` lists the bytes that reach the queue
before each of the coming driver calls acts on it (one chunk per call of
`uart_read_bytes` or `uart_flush_input`, possibly empty). -/
structure Uart where
  rx : List Nat
  wire : List (List Nat)
deriving DecidableEq, Repr

/-- The call `uart_read_bytes(UART_NUM_1, buf, len, ticks)`: up to `len` bytes leave
the queue, after the bytes arriving during the wait have joined it. -/
def uart_read_bytes (u : Uart) (len : Nat) : List Nat × Uart :=
  let rx := u.rx ++ u.wire.headD []
  (rx.take len, { rx := rx.drop len, wire := u.wire.tail })

/-- The receive interrupt between two driver calls: the next chunk of `wire` joins
the queue. -/
def uart_receive (u : Uart) : Uart :=
  { rx := u.rx ++ u.wire.headD [], wire := u.wire.tail }

/-- The call `uart_flush_input(UART_NUM_1)`: whatever the queue holds is dropped. -/
def uart_flush_input (u : Uart) : Uart := { u with rx := [] }

/-- Bytes in the queue or still to arrive. -/
def Uart.pending (u : Uart) : Nat := u.rx.length + (u.wire.map List.length).sum

/-- The locals `buttons`, `dx`, `dy`, `is_recv`. `buttons` is kept as its bit
pattern, `dx` and `dy` as signed values. -/
structure Accum where
  buttons : Nat
  dx : Int
  dy : Int
  is_recv : Bool
deriving DecidableEq, Repr

def Accum.zero : Accum := { buttons := 0, dx := 0, dy := 0, is_recv := false }

/-- Lines 403-405: a complete packet is added to the locals. -/
def accumulate (a : Accum) (mousebuf : List Nat) : Accum :=
  { buttons := (a.buttons ||| mousebuf.getD 0 0) % 256,
    dx := toInt8 (a.dx + (mousebuf.getD 1 0 : Nat)),
    dy := toInt8 (a.dy - (mousebuf.getD 2 0 : Nat)),
    is_recv := true }

/-- Lines 394-400: the read of a pass with its one supplementary read; the result
is the content of `mousebuf` (`nrrd` bytes) and the receiver afterwards. -/
def read_packet (u : Uart) : List Nat × Uart :=
  let r1 := uart_read_bytes u 3
  if 0 < r1.1.length ∧ r1.1.length < 3 then
    let r2 := uart_read_bytes r1.2 (3 - r1.1.length)
    (r1.1 ++ r2.1, r2.2)
  else r1

/-- Lines 392-422: the `while (1)` loop, with a bound on the number of passes. The
flush of line 416 finds the queue as the supplementary read left it, joined by
the bytes received since (`uart_receive`). -/
def parse_loop : Nat → Uart → Accum → Option (Uart × Accum)
  | 0, _, _ => none
  | fuel + 1, u, a =>
    let r := read_packet u
    if r.1.length > 0 then
      if r.1.length = 3 then
        parse_loop fuel r.2 (accumulate a r.1)
      else
        some (uart_flush_input (uart_receive r.2), Accum.zero)
    else some (r.2, a)

/-- The variables of trackpoint.c that live across calls of `poll_trackpoint`. -/
structure TpState where
  uart1_fd : Int
  is_midkey : Bool
  is_pan : Bool
  uart : Uart
deriving DecidableEq, Repr

/-- What a call reads from outside: the connectivity flag, the result of
`select`, the argument `poll_us` and the tick period. -/
structure PollEnv where
  is_usb_connected : Bool
  select_result : Int
  poll_us : Nat
  portTICK_PERIOD_MS : Nat

/-- What a call hands to the outside. `mouse_report` carries the five arguments
of `tinyusb_hid_mouse_report` in order; `delay` is `vTaskDelay`. -/
inductive TpEvent where
  | mouse_report (buttons : Nat) (x y vertical horizontal : Int)
  | delay (ticks : Nat)
  | close
deriving DecidableEq, Repr

/-- Lines 453-460, one axis. -/
def scale (d : Int) : Int :=
  if d > MOUSE_SCALE_MIN then toInt8 (d + (d - MOUSE_SCALE_MIN) * 2)
  else if d < -MOUSE_SCALE_MIN then toInt8 (d + (d + MOUSE_SCALE_MIN) * 2)
  else d

/-- Lines 425-469: from the accumulated locals to the reports. The result is the
new `is_midkey`, the new `is_pan` and the events. -/
def emit (is_usb_connected : Bool) (is_midkey is_pan : Bool) (a : Accum) :
    Bool × Bool × List TpEvent :=
  let buttons := a.buttons &&& 0b00000111
  if a.is_recv then
    if buttons &&& 0b00000100 ≠ 0 then
      if a.dx ≠ 0 ∨ a.dy ≠ 0 then
        let pan_x : Int := if a.dx > 0 then 1 else if a.dx < 0 then -1 else 0
        let pan_y : Int := if a.dy < 0 then 1 else if a.dy > 0 then -1 else 0
        (true, true,
          if is_usb_connected then [TpEvent.mouse_report (buttons &&& 0b00000011) 0 0 pan_y pan_x]
          else [])
      else
        (true, is_pan,
          if is_usb_connected then [TpEvent.mouse_report (buttons &&& 0b00000011) a.dx a.dy 0 0]
          else [])
    else
      let click :=
        if is_midkey && !is_pan then
          if is_usb_connected then
            [TpEvent.mouse_report 0b00000100 0 0 0 0, TpEvent.delay 20,
             TpEvent.mouse_report 0 0 0 0 0, TpEvent.delay 20]
          else []
        else []
      (false, false,
        click ++
          (if is_usb_connected then
            [TpEvent.mouse_report (buttons &&& 0b00000011) (scale a.dx) (scale a.dy) 0 0]
           else []))
  else (is_midkey, is_pan, [])

/-- Lines 361-470: one call of `poll_trackpoint`. -/
def poll_trackpoint (env : PollEnv) (st : TpState) : Option (TpState × List TpEvent) :=
  if st.uart1_fd < 0 then
    some (st, [TpEvent.delay (env.poll_us / 1000 / env.portTICK_PERIOD_MS)])
  else if env.select_result < 0 then
    let e := emit env.is_usb_connected st.is_midkey st.is_pan Accum.zero
    some ({ st with uart1_fd := -1, is_midkey := e.1, is_pan := e.2.1 }, TpEvent.close :: e.2.2)
  else if env.select_result ≠ 0 then
    match parse_loop (st.uart.pending + 1) st.uart Accum.zero with
    | none => none
    | some (u, a) =>
      let e := emit env.is_usb_connected st.is_midkey st.is_pan a
      some ({ st with uart := u, is_midkey := e.1, is_pan := e.2.1 }, e.2.2)
  else
    let e := emit env.is_usb_connected st.is_midkey st.is_pan Accum.zero
    some ({ st with is_midkey := e.1, is_pan := e.2.1 }, e.2.2)

/-- The file-level and function-level statics as the program starts (lines 64,
373), with a receiver. -/
def tp_boot (u : Uart) : TpState :=
  { uart1_fd := -1, is_midkey := false, is_pan := true, uart := u }

/-- The mouse reports among the events. -/
def mouse_reports : List TpEvent → List TpEvent
  | [] => []
  | TpEvent.mouse_report b x y v h :: rest => TpEvent.mouse_report b x y v h :: mouse_reports rest
  | _ :: rest => mouse_reports rest

/-- Bytes reach the input queue between two calls. -/
def arrive (st : TpState) (bytes : List Nat) : TpState :=
  { st with uart := { st.uart with rx := st.uart.rx ++ bytes } }

/-- Successive calls, each after the arrival of some bytes; the events of all
calls in order. -/
def poll_run (env : PollEnv) : TpState → List (List Nat) → Option (TpState × List TpEvent)
  | st, [] => some (st, [])
  | st, bytes :: rest =>
    match poll_trackpoint env (arrive st bytes) with
    | none => none
    | some r =>
      match poll_run env r.1 rest with
      | none => none
      | some rr => some (rr.1, r.2 ++ rr.2)

/-! ### Vocabulary of the claims -/

/-- A round as the design document describes it: it starts from the first command,
sends the commands in order, every exchange but the last was acknowledged, and a
round cut short ends on an exchange that was not. -/
def round_well_formed (round : List Exchange) : Prop :=
  round ≠ [] ∧ round.map (fun e => e.cmd) = init_cmds.take round.length ∧
  (∀ e ∈ round.dropLast, e.answer = 0xfa) ∧
  (round.length < 5 → ∀ e, round.getLast? = some e → e.answer ≠ 0xfa)

/-- All five commands of the round were answered with 0xFA. -/
def round_acknowledged (round : List Exchange) : Prop :=
  round.length = 5 ∧ ∀ e ∈ round, e.answer = 0xfa

/-- The scaling as the design document words it, threshold 1. -/
def scale_formula (d : Int) : Int :=
  if |d| ≤ 1 then d else if d > 1 then d + 2 * (d - 1) else d + 2 * (d + 1)

/-- The first `k` passes of the loop each assemble a complete packet and the next
pass reads 1 or 2 bytes. -/
def short_read_after : Nat → Uart → Bool
  | 0, u => decide (0 < (read_packet u).1.length ∧ (read_packet u).1.length < 3)
  | k + 1, u => decide ((read_packet u).1.length = 3) && short_read_after k (read_packet u).2

/-- The receiver after `k` passes of the loop. -/
def after_passes : Nat → Uart → Uart
  | 0, u => u
  | k + 1, u => after_passes k (read_packet u).2

/-- A connected host, data ready. -/
def env_ready : PollEnv :=
  { is_usb_connected := true, select_result := 1, poll_us := 4166, portTICK_PERIOD_MS := 1 }

/-- The state right after a successful initialisation: the statics as at the start
of the program, the receiver open. -/
def tp_after_init (u : Uart) : TpState :=
  { uart1_fd := 3, is_midkey := false, is_pan := true, uart := u }

/-- The state after a successful initialisation and a cycle without the middle
button, with the given receiver. -/
def tp_idle (u : Uart) : TpState :=
  { uart1_fd := 3, is_midkey := false, is_pan := false, uart := u }

/-! ### ps2_write_1, ps2_write_2: the bits put on the data line -/

/-- Lines 147-151: the parity bit `op` of `ps2_write_1`, on `uint8_t`. -/
def ps2_write_1_op (ch : Nat) : Nat :=
  let op := (ch ^^^ 0x1) % 256
  let op := (op ^^^ (op >>> 4)) % 256
  let op := (op ^^^ (op >>> 2)) % 256
  let op := (op ^^^ (op >>> 1)) % 256
  op &&& 0x1

/-- Lines 216-220: the parity bit `op` of `ps2_write_2`, on `uint8_t`. -/
def ps2_write_2_op (ch : Nat) : Nat :=
  let op := (ch ^^^ 0x1) % 256
  let op := (op ^^^ (op >>> 4)) % 256
  let op := (op ^^^ (op >>> 2)) % 256
  let op := (op ^^^ (op >>> 1)) % 256
  op &&& 0x1

/-- The data loop of both routines (lines 171-182, 239-251): `n` times, the level
`ch & 1` is put on the data line and `ch` is shifted right. -/
def data_bits : Nat → Nat → List Nat
  | 0, _ => []
  | n + 1, ch => (ch &&& 0x1) :: data_bits n (ch >>> 1)

/-- The levels `ps2_write_1` puts on the data line between start and stop: the
eight data bits, least significant first, then the parity bit. -/
def ps2_write_1_frame (ch : Nat) : List Nat :=
  data_bits 8 ch ++ [if ps2_write_1_op ch ≠ 0 then 1 else 0]

/-- The levels `ps2_write_2` puts on the data line between start and stop. -/
def ps2_write_2_frame (ch : Nat) : List Nat :=
  data_bits 8 ch ++ [if ps2_write_2_op ch ≠ 0 then 1 else 0]

/-! ### Packets of one poll cycle -/

/-- The passes of the reassembly loop on `u` assemble exactly the listed packets,
each complete, and the pass after the last one finds nothing to read. -/
def reads_packets : List (List Nat) → Uart → Bool
  | [], u => decide ((read_packet u).1.length = 0)
  | p :: ps, u =>
    decide ((read_packet u).1 = p ∧ p.length = 3) && reads_packets ps (read_packet u).2

/-- The receiver after the passes that `reads_packets` describes. -/
def uart_after_packets : List (List Nat) → Uart → Uart
  | [], u => (read_packet u).2
  | _ :: ps, u => uart_after_packets ps (read_packet u).2

/-- Bitwise OR of the first bytes of the packets. -/
def buttons_or : List (List Nat) → Nat
  | [] => 0
  | p :: ps => p.getD 0 0 ||| buttons_or ps

/-- Sum of the bytes at position `k` of the packets. -/
def sum_byte (k : Nat) : List (List Nat) → Int
  | [] => 0
  | p :: ps => (p.getD k 0 : Nat) + sum_byte k ps

end Trackpoint

/-! ## Properties of keyboard.c -/

namespace Keyboard

/-! ### Lemmas on the scan loops -/

theorem key_step_rows_connected (km : Keymap) (l : Bool) (inp : ScanInput) (c r : Nat) (s : Scan) :
    (key_step km l inp c r s).rows_connected = s.rows_connected ∧
    (key_step km l inp c r s).has_phantom_key = s.has_phantom_key := by
  unfold key_step
  dsimp only
  split_ifs <;> first | exact ⟨rfl, rfl⟩ | (split <;> exact ⟨rfl, rfl⟩)

theorem row_fold_frame (km : Keymap) (l : Bool) (inp : ScanInput) (c : Nat) (rows : List Nat) :
    ∀ acc : Scan × Nat,
      (rows.foldl (scan_row km l inp c) acc).1.rows_connected = acc.1.rows_connected ∧
      (rows.foldl (scan_row km l inp c) acc).1.has_phantom_key = acc.1.has_phantom_key := by
  induction rows with
  | nil => intro acc; exact ⟨rfl, rfl⟩
  | cons r rs ih =>
    intro acc
    rw [List.foldl_cons]
    obtain ⟨h1, h2⟩ := ih (scan_row km l inp c acc r)
    rw [h1, h2]
    unfold scan_row
    split
    · exact key_step_rows_connected km l inp c r acc.1
    · exact ⟨rfl, rfl⟩

theorem row_fold_bit_mono (km : Keymap) (l : Bool) (inp : ScanInput) (c : Nat) (rows : List Nat) (i : Nat) :
    ∀ acc : Scan × Nat, acc.2.testBit i = true →
      (rows.foldl (scan_row km l inp c) acc).2.testBit i = true := by
  induction rows with
  | nil => intro acc h; exact h
  | cons r rs ih =>
    intro acc h
    rw [List.foldl_cons]
    apply ih
    unfold scan_row
    split
    · simp [Nat.testBit_or, h]
    · exact h

theorem row_fold_bit_set (km : Keymap) (l : Bool) (inp : ScanInput) (c : Nat) (rows : List Nat) (i : Nat)
    (hi : i ∈ rows) (ha : inp.row_level c i = 0) :
    ∀ acc : Scan × Nat, (rows.foldl (scan_row km l inp c) acc).2.testBit i = true := by
  induction rows with
  | nil => simp at hi
  | cons r rs ih =>
    intro acc
    rw [List.foldl_cons]
    rcases List.mem_cons.mp hi with h | h
    · subst h
      apply row_fold_bit_mono
      unfold scan_row
      rw [if_pos ha]
      simp [Nat.testBit_or, Nat.one_shiftLeft, Nat.testBit_two_pow]
    · exact ih h _

/-- Two distinct bits below 32 make the test `x & (x - 1)` nonzero. -/
theorem more_than_one_bit_of_two (x a b : Nat) (hab : a < b) (hb : b < 32)
    (ha1 : x.testBit a = true) (hb1 : x.testBit b = true) : more_than_one_bit x = true := by
  have hx : 1 ≤ x % 2 ^ b := by
    have : (x % 2 ^ b).testBit a = true := by
      rw [Nat.testBit_mod_two_pow]; simp [hab, ha1]
    rcases Nat.eq_zero_or_pos (x % 2 ^ b) with h0 | h0
    · rw [h0] at this; simp at this
    · exact h0
  have hx1 : 1 ≤ x := le_trans hx (Nat.mod_le _ _)
  have hdiv : (x - 1) / 2 ^ b = x / 2 ^ b := by
    have hpos : 0 < 2 ^ b := Nat.pos_pow_of_pos _ (by norm_num)
    have e : x - 1 = (x % 2 ^ b - 1) + 2 ^ b * (x / 2 ^ b) := by
      have := Nat.mod_add_div x (2 ^ b)
      omega
    rw [e, Nat.add_mul_div_left _ _ hpos]
    have : (x % 2 ^ b - 1) / 2 ^ b = 0 := by
      apply Nat.div_eq_of_lt
      have := Nat.mod_lt x hpos
      omega
    omega
  have hbit : (x - 1).testBit b = true := by
    rw [Nat.testBit_to_div_mod, hdiv, ← Nat.testBit_to_div_mod]; exact hb1
  have hwrap : (x + 4294967295) % 4294967296 = (x - 1) % 2 ^ 32 := by
    have : x + 4294967295 = (x - 1) + 4294967296 := by omega
    rw [this, Nat.add_mod_right]; norm_num
  unfold more_than_one_bit
  rw [hwrap]
  have hand : (x &&& (x - 1) % 2 ^ 32).testBit b = true := by
    rw [Nat.testBit_and, Nat.testBit_mod_two_pow]; simp [hb, hb1, hbit]
  simp only [bne_iff_ne, ne_eq]
  intro h0
  rw [h0] at hand
  simp at hand

theorem scan_col_rows_connected (km : Keymap) (l : Bool) (inp : ScanInput) (s : Scan) (c : Nat) :
    (scan_col km l inp s c).rows_connected =
      s.rows_connected ||| ((List.range ROW_NUM).foldl (scan_row km l inp c) (s, 0)).2 := by
  unfold scan_col
  dsimp only
  rw [(row_fold_frame km l inp c (List.range ROW_NUM) (s, 0)).1]

theorem scan_col_has_phantom_key (km : Keymap) (l : Bool) (inp : ScanInput) (s : Scan) (c : Nat) :
    (scan_col km l inp s c).has_phantom_key =
      if more_than_one_bit
          (((List.range ROW_NUM).foldl (scan_row km l inp c) (s, 0)).2 &&& s.rows_connected)
      then true else s.has_phantom_key := by
  unfold scan_col
  dsimp only
  rw [(row_fold_frame km l inp c (List.range ROW_NUM) (s, 0)).1,
    (row_fold_frame km l inp c (List.range ROW_NUM) (s, 0)).2]

theorem col_fold_phantom_mono (km : Keymap) (l : Bool) (inp : ScanInput) (cols : List Nat) :
    ∀ s : Scan, s.has_phantom_key = true →
      (cols.foldl (scan_col km l inp) s).has_phantom_key = true := by
  induction cols with
  | nil => intro s h; exact h
  | cons c cs ih =>
    intro s h
    rw [List.foldl_cons]
    apply ih
    rw [scan_col_has_phantom_key, h]
    simp

/-- A column in which rows `a` and `b` read active, scanned when both rows are
already in `rows_connected`, raises `has_phantom_key`. -/
theorem scan_col_phantom (km : Keymap) (l : Bool) (inp : ScanInput) (s : Scan) (c a b : Nat)
    (hab : a < b) (hb : b < ROW_NUM)
    (hca : inp.row_level c a = 0) (hcb : inp.row_level c b = 0)
    (hsa : s.rows_connected.testBit a = true) (hsb : s.rows_connected.testBit b = true) :
    (scan_col km l inp s c).has_phantom_key = true := by
  rw [scan_col_has_phantom_key]
  have ha : a ∈ List.range ROW_NUM := List.mem_range.mpr (lt_trans hab hb)
  have hb' : b ∈ List.range ROW_NUM := List.mem_range.mpr hb
  have h1 := row_fold_bit_set km l inp c (List.range ROW_NUM) a ha hca (s, 0)
  have h2 := row_fold_bit_set km l inp c (List.range ROW_NUM) b hb' hcb (s, 0)
  have hb32 : b < 32 := lt_trans hb (by decide)
  rw [more_than_one_bit_of_two _ a b hab hb32
    (by rw [Nat.testBit_and, h1, hsa]; rfl) (by rw [Nat.testBit_and, h2, hsb]; rfl)]
  rfl

theorem col_fold_phantom_of_connected (km : Keymap) (l : Bool) (inp : ScanInput) (B a b : Nat)
    (hab : a < b) (hb : b < ROW_NUM)
    (hca : inp.row_level B a = 0) (hcb : inp.row_level B b = 0) (cols : List Nat) :
    ∀ s : Scan, B ∈ cols → s.rows_connected.testBit a = true →
      s.rows_connected.testBit b = true →
      (cols.foldl (scan_col km l inp) s).has_phantom_key = true := by
  induction cols with
  | nil => intro s h; simp at h
  | cons c cs ih =>
    intro s hB hsa hsb
    rw [List.foldl_cons]
    rcases List.mem_cons.mp hB with h | h
    · subst h
      exact col_fold_phantom_mono km l inp cs _
        (scan_col_phantom km l inp s B a b hab hb hca hcb hsa hsb)
    · apply ih _ h
      · rw [scan_col_rows_connected, Nat.testBit_or, hsa]; rfl
      · rw [scan_col_rows_connected, Nat.testBit_or, hsb]; rfl

theorem col_fold_phantom (km : Keymap) (l : Bool) (inp : ScanInput) (A B a b : Nat)
    (hAB : A < B) (hab : a < b) (hb : b < ROW_NUM)
    (hAa : inp.row_level A a = 0) (hAb : inp.row_level A b = 0)
    (hBa : inp.row_level B a = 0) (hBb : inp.row_level B b = 0) :
    ∀ (n lo : Nat) (s : Scan), lo ≤ A → B < lo + n →
      ((List.range' lo n).foldl (scan_col km l inp) s).has_phantom_key = true := by
  intro n
  induction n with
  | zero => intro lo s h1 h2; omega
  | succ n ih =>
    intro lo s h1 h2
    rw [List.range'_succ, List.foldl_cons]
    rcases Nat.eq_or_lt_of_le h1 with h | h
    · subst h
      have hB : B ∈ List.range' (lo + 1) n := by
        rw [List.mem_range'_1]; omega
      have ha : a ∈ List.range ROW_NUM := List.mem_range.mpr (lt_trans hab hb)
      have hb' : b ∈ List.range ROW_NUM := List.mem_range.mpr hb
      apply col_fold_phantom_of_connected km l inp B a b hab hb hBa hBb _ _ hB
      · rw [scan_col_rows_connected, Nat.testBit_or,
          row_fold_bit_set km l inp lo (List.range ROW_NUM) a ha hAa (s, 0)]
        simp
      · rw [scan_col_rows_connected, Nat.testBit_or,
          row_fold_bit_set km l inp lo (List.range ROW_NUM) b hb' hAb (s, 0)]
        simp
    · exact ih (lo + 1) _ (by omega) (by omega)

/-- Two columns `A < B` that both read the rows `a < b` active raise
`has_phantom_key` in the scan. -/
theorem scan_has_phantom_key (km : Keymap) (l : Bool) (inp : ScanInput) (A B a b : Nat)
    (hAB : A < B) (hB : B < COL_NUM) (hab : a < b) (hb : b < ROW_NUM)
    (hAa : inp.row_level A a = 0) (hAb : inp.row_level A b = 0)
    (hBa : inp.row_level B a = 0) (hBb : inp.row_level B b = 0) :
    (scan km l inp).has_phantom_key = true := by
  unfold scan
  rw [List.range_eq_range']
  exact col_fold_phantom km l inp A B a b hAB hab hb hAa hAb hBa hBb COL_NUM 0 _
    (Nat.zero_le _) (by omega)

/-- A cycle whose scan raised `has_phantom_key` leaves the state as it was and
emits nothing. -/
theorem keyboard_cycle_frozen (km : Keymap) (st : KbState) (inp : ScanInput)
    (h : (scan km st.is_fn_locked inp).has_phantom_key = true) :
    decode km st inp = previous st ∧
    keyboard_cycle km st inp = (st, []) := by
  have hd : decode km st inp = previous st := by
    unfold decode
    simp [h]
  refine ⟨hd, ?_⟩
  unfold keyboard_cycle
  split
  · rfl
  · rw [hd]
    simp [previous]

/-! ### The six key slots, Fn button released and Fn-lock off -/

theorem set_append_replicate (ks : List Nat) (v c : Nat) :
    (ks ++ List.replicate (c + 1) 0).set ks.length v = (ks ++ [v]) ++ List.replicate c 0 := by
  induction ks with
  | nil => rfl
  | cons k ks ih => simp [ih]

theorem pad6_set (ks : List Nat) (v : Nat) (h : ks.length < 6) :
    (pad6 ks).set ks.length v = pad6 (ks ++ [v]) := by
  unfold pad6
  have e : 6 - ks.length = (6 - (ks ++ [v]).length) + 1 := by
    simp only [List.length_append, List.length_singleton]; omega
  rw [e, set_append_replicate]

theorem slots_inv_push (s : Scan) (ks : List Nat) (v : Nat) (h : slots_inv s ks)
    (b : Bool) (hk : Nat) (hlt : s.nr_hidkey < 6) :
    slots_inv { s with hid := s.hid.set (2 + s.nr_hidkey) v, nr_hidkey := s.nr_hidkey + 1,
                       is_key_pressed := b, hotkey := hk } (ks ++ [v]) := by
  obtain ⟨hn, m0, m1, hh⟩ := h
  have hlen : ks.length < 6 := by
    rw [hn] at hlt
    omega
  have hnr : s.nr_hidkey = ks.length := by rw [hn]; omega
  refine ⟨?_, m0, m1, ?_⟩
  · simp only [List.length_append, List.length_singleton]
    omega
  · show s.hid.set (2 + s.nr_hidkey) v = _
    rw [hh, hnr, Nat.add_comm 2 ks.length, List.take_of_length_le (by omega),
      List.take_of_length_le (by simp only [List.length_append, List.length_singleton]; omega)]
    show m0 :: m1 :: (pad6 ks).set ks.length v = _
    rw [pad6_set ks v hlen]

theorem slots_inv_full (s : Scan) (ks : List Nat) (v : Nat) (h : slots_inv s ks)
    (hge : ¬ s.nr_hidkey < 6) : slots_inv s (ks ++ [v]) := by
  obtain ⟨hn, m0, m1, hh⟩ := h
  have hlen : 6 ≤ ks.length := by
    rw [hn] at hge
    omega
  refine ⟨?_, m0, m1, ?_⟩
  · simp only [List.length_append, List.length_singleton]
    omega
  · rw [hh, List.take_append_of_le_length hlen]

theorem is_plain_key_iff (km : Keymap) (inp : ScanInput) (c r : Nat) :
    is_plain_key km inp (c, r) = true ↔
      inp.row_level c r = 0 ∧ km.search_hid_key c r > 0 ∧
        ¬ (km.search_hid_key c r ≥ km.KEY_LEFTCTRL ∧ km.search_hid_key c r ≤ km.KEY_RIGHTMETA) := by
  unfold is_plain_key
  simp only [Bool.and_eq_true, Bool.not_eq_true', decide_eq_true_eq, ← Bool.decide_and,
    decide_eq_false_iff_not, and_assoc]

theorem key_step_unbound (km : Keymap) (l : Bool) (inp : ScanInput) (c r : Nat) (s : Scan)
    (h : ¬ km.search_hid_key c r > 0) : key_step km l inp c r s = s := by
  unfold key_step
  dsimp only
  rw [if_neg h]

theorem key_step_modifier (km : Keymap) (l : Bool) (inp : ScanInput) (c r : Nat) (s : Scan)
    (hpos : km.search_hid_key c r > 0) (hfn : inp.BUTTON_FN_STATE c r ≠ 0)
    (hmod : km.search_hid_key c r ≥ km.KEY_LEFTCTRL ∧ km.search_hid_key c r ≤ km.KEY_RIGHTMETA) :
    key_step km l inp c r s =
      { s with
        hid := s.hid.set 0
          ((s.hid.getD 0 0 ||| (1 <<< ((km.search_hid_key c r).toNat &&& 7))) % 256) } := by
  unfold key_step
  dsimp only
  rw [if_pos hpos, if_pos hfn, if_pos hmod]

theorem key_step_plain (km : Keymap) (inp : ScanInput) (c r : Nat) (s : Scan)
    (hpos : km.search_hid_key c r > 0) (hfn : inp.BUTTON_FN_STATE c r ≠ 0)
    (hmod : ¬ (km.search_hid_key c r ≥ km.KEY_LEFTCTRL ∧
      km.search_hid_key c r ≤ km.KEY_RIGHTMETA)) :
    key_step km false inp c r s =
      if s.nr_hidkey < 6 then
        { s with hid := s.hid.set (2 + s.nr_hidkey) ((km.search_hid_key c r).toNat % 256),
                 nr_hidkey := s.nr_hidkey + 1, is_key_pressed := true, hotkey := 0 }
      else s := by
  unfold key_step
  dsimp only
  rw [if_pos hpos, if_pos hfn, if_neg hmod, if_neg (by simp)]

theorem key_step_slots (km : Keymap) (inp : ScanInput) (c r : Nat) (s : Scan) (ks : List Nat)
    (hfn : inp.BUTTON_FN_STATE c r ≠ 0) (ha : inp.row_level c r = 0) (h : slots_inv s ks) :
    slots_inv (key_step km false inp c r s)
      (ks ++ (if is_plain_key km inp (c, r) then [key_byte km (c, r)] else [])) := by
  by_cases hpos : km.search_hid_key c r > 0
  · by_cases hmod : km.search_hid_key c r ≥ km.KEY_LEFTCTRL ∧
        km.search_hid_key c r ≤ km.KEY_RIGHTMETA
    · have hp : ¬ is_plain_key km inp (c, r) = true := by
        rw [is_plain_key_iff]; tauto
      rw [if_neg hp, List.append_nil, key_step_modifier km false inp c r s hpos hfn hmod]
      obtain ⟨hn, m0, m1, hh⟩ := h
      refine ⟨hn, (s.hid.getD 0 0 ||| (1 <<< ((km.search_hid_key c r).toNat &&& 7))) % 256,
        m1, ?_⟩
      show s.hid.set 0 _ = _
      rw [hh]
      rfl
    · have hp : is_plain_key km inp (c, r) = true := by
        rw [is_plain_key_iff]; exact ⟨ha, hpos, hmod⟩
      rw [if_pos hp, key_step_plain km inp c r s hpos hfn hmod]
      split
      · rename_i hlt
        exact slots_inv_push s ks _ h true 0 hlt
      · rename_i hge
        exact slots_inv_full s ks _ h hge
  · have hp : ¬ is_plain_key km inp (c, r) = true := by
      rw [is_plain_key_iff]; tauto
    rw [if_neg hp, List.append_nil, key_step_unbound km false inp c r s hpos]
    exact h

theorem row_fold_slots (km : Keymap) (inp : ScanInput) (c : Nat)
    (hfn : ∀ c r, inp.BUTTON_FN_STATE c r ≠ 0) (rows : List Nat) :
    ∀ (acc : Scan × Nat) (ks : List Nat), slots_inv acc.1 ks →
      slots_inv (rows.foldl (scan_row km false inp c) acc).1
        (ks ++ ((rows.map (fun r => (c, r))).filter (is_plain_key km inp)).map (key_byte km)) := by
  induction rows with
  | nil => intro acc ks h; simpa using h
  | cons r rs ih =>
    intro acc ks h
    rw [List.foldl_cons]
    by_cases ha : inp.row_level c r = 0
    · have h1 := key_step_slots km inp c r acc.1 ks (hfn c r) ha h
      have h2 := ih (scan_row km false inp c acc r) _ (by
        unfold scan_row; rw [if_pos ha]; exact h1)
      by_cases hp : is_plain_key km inp (c, r) = true
      · simpa [List.filter_cons, hp, List.append_assoc] using h2
      · simpa [List.filter_cons, hp, List.append_assoc] using h2
    · have hp : is_plain_key km inp (c, r) = false := by
        unfold is_plain_key
        simp [ha]
      have h2 := ih (scan_row km false inp c acc r) ks (by
        unfold scan_row; rw [if_neg ha]; exact h)
      simpa [List.filter_cons, hp] using h2

theorem scan_col_slots (km : Keymap) (inp : ScanInput) (c : Nat) (s : Scan) (ks : List Nat)
    (hfn : ∀ c r, inp.BUTTON_FN_STATE c r ≠ 0) (h : slots_inv s ks) :
    slots_inv (scan_col km false inp s c)
      (ks ++ (((List.range ROW_NUM).map (fun r => (c, r))).filter
        (is_plain_key km inp)).map (key_byte km)) :=
  row_fold_slots km inp c hfn (List.range ROW_NUM) (s, 0) ks h

theorem col_fold_slots (km : Keymap) (inp : ScanInput)
    (hfn : ∀ c r, inp.BUTTON_FN_STATE c r ≠ 0) (cols : List Nat) :
    ∀ (s : Scan) (ks : List Nat), slots_inv s ks →
      slots_inv (cols.foldl (scan_col km false inp) s)
        (ks ++ ((cols.flatMap (fun c => (List.range ROW_NUM).map (fun r => (c, r)))).filter
          (is_plain_key km inp)).map (key_byte km)) := by
  induction cols with
  | nil => intro s ks h; simpa using h
  | cons c cs ih =>
    intro s ks h
    rw [List.foldl_cons]
    have h2 := ih _ _ (scan_col_slots km inp c s ks hfn h)
    simpa [List.flatMap_cons, List.filter_append, List.append_assoc] using h2

/-- With the Fn button released and Fn-lock off, the six key slots after the scan
are the bytes of the first six plain keys in scan order, then zeros. -/
theorem scan_slots (km : Keymap) (inp : ScanInput)
    (hfn : ∀ c r, inp.BUTTON_FN_STATE c r ≠ 0) :
    (scan km false inp).hid.drop 2 = pad6 (((plain_keys km inp).map (key_byte km)).take 6) := by
  have h0 : slots_inv (scan_init km) [] := ⟨rfl, 0, 0, rfl⟩
  obtain ⟨_, m0, m1, hh⟩ := col_fold_slots km inp hfn (List.range COL_NUM) (scan_init km) [] h0
  unfold scan
  rw [hh]
  rfl

/-! ### C1 -/

/-- C1 (phantom freeze). In every scan cycle in which two columns `A < B` both
read the same two distinct rows `R1`, `R2` active (whatever else is active),
`has_phantom_key` is set, the decoded `hid`, `hotkey`, `fnfunc` and
`is_key_pressed` are the previous cycle's values, and the cycle transmits no
keyboard report and no consumer report (it emits nothing at all and leaves the
carried state unchanged). -/
theorem phantom_freeze (km : Keymap) (st : KbState) (inp : ScanInput) (A B R1 R2 : Nat)
    (hAB : A < B) (hB : B < COL_NUM) (hR : R1 ≠ R2) (hR1 : R1 < ROW_NUM) (hR2 : R2 < ROW_NUM)
    (hA1 : active inp A R1) (hA2 : active inp A R2)
    (hB1 : active inp B R1) (hB2 : active inp B R2) :
    (scan km st.is_fn_locked inp).has_phantom_key = true ∧
    decode km st inp = previous st ∧
    (keyboard_cycle km st inp).1 = st ∧
    (keyboard_cycle km st inp).2 = [] ∧
    keyboard_reports (keyboard_cycle km st inp).2 = [] ∧
    consumer_reports (keyboard_cycle km st inp).2 = [] := by
  have hph : (scan km st.is_fn_locked inp).has_phantom_key = true := by
    rcases Nat.lt_or_gt_of_ne hR with h | h
    · exact scan_has_phantom_key km _ inp A B R1 R2 hAB hB h hR2 hA1 hA2 hB1 hB2
    · exact scan_has_phantom_key km _ inp A B R2 R1 hAB hB h hR1 hA2 hA1 hB2 hB1
  obtain ⟨hd, hc⟩ := keyboard_cycle_frozen km st inp hph
  refine ⟨hph, hd, ?_, ?_, ?_, ?_⟩ <;> rw [hc] <;> rfl

/-- The freeze seen on a concrete scan: `h`, `g`, `j`, `f` sit on columns 0 and 4,
rows 0 and 4, and `Esc` is pressed as well; the report of the previous cycle
stays. -/
theorem phantom_freeze_witness :
    decode sample_keymap state_holding_a (scan_of [(0, 0), (0, 4), (4, 0), (4, 4), (0, 10)])
        = previous state_holding_a ∧
      (keyboard_cycle sample_keymap state_holding_a
        (scan_of [(0, 0), (0, 4), (4, 0), (4, 4), (0, 10)])).2 = [] :=
  have h := phantom_freeze sample_keymap state_holding_a
    (scan_of [(0, 0), (0, 4), (4, 0), (4, 4), (0, 10)]) 0 4 0 4
    (by decide) (by decide) (by decide) (by decide) (by decide)
    (by decide) (by decide) (by decide) (by decide)
  ⟨h.2.1, h.2.2.2.1⟩

/-! ### Releasing keys -/

/-- A nonzero `x & (x - 1)` shows two distinct bits of `x` below 32. -/
theorem two_bits_of_more_than_one_bit (x : Nat) (h : more_than_one_bit x = true) :
    ∃ a b, a < b ∧ b < 32 ∧ x.testBit a = true ∧ x.testBit b = true := by
  unfold more_than_one_bit at h
  simp only [bne_iff_ne, ne_eq] at h
  have hx1 : 1 ≤ x := by
    rcases Nat.eq_zero_or_pos x with h0 | h0
    · rw [h0] at h; simp at h
    · exact h0
  have hwrap : (x + 4294967295) % 4294967296 = (x - 1) % 2 ^ 32 := by
    have : x + 4294967295 = (x - 1) + 4294967296 := by omega
    rw [this, Nat.add_mod_right]; norm_num
  rw [hwrap] at h
  obtain ⟨i, hi⟩ : ∃ i, (x &&& (x - 1) % 2 ^ 32).testBit i = true := by
    by_contra hcon
    push_neg at hcon
    exact h (Nat.zero_of_testBit_eq_false (fun i => by simpa using hcon i))
  rw [Nat.testBit_and, Nat.testBit_mod_two_pow] at hi
  simp only [Bool.and_eq_true, decide_eq_true_eq] at hi
  obtain ⟨hxi, hi32, hpi⟩ := hi
  have hlow : ∃ j, j < i ∧ x.testBit j = true := by
    by_contra hcon
    push_neg at hcon
    have hmod : x % 2 ^ i = 0 := by
      apply Nat.zero_of_testBit_eq_false
      intro j
      rw [Nat.testBit_mod_two_pow]
      by_cases hj : j < i
      · simp [hj, hcon j hj]
      · simp [hj]
    have hpos : 0 < 2 ^ i := Nat.pos_pow_of_pos _ (by norm_num)
    have hdm := Nat.mod_add_div x (2 ^ i)
    rw [hmod, Nat.zero_add] at hdm
    have hq : x / 2 ^ i % 2 = 1 := by
      have := hxi
      rw [Nat.testBit_to_div_mod] at this
      simpa using this
    have hq1 : x / 2 ^ i ≠ 0 := by
      intro h0
      rw [h0] at hq
      simp at hq
    obtain ⟨q, hq2⟩ : ∃ q, x / 2 ^ i = q + 1 :=
      ⟨x / 2 ^ i - 1, (Nat.sub_add_cancel (Nat.pos_of_ne_zero hq1)).symm⟩
    have hxq : x = 2 ^ i * q + 2 ^ i := by
      rw [← hdm, hq2, Nat.mul_succ]
    have hdiv : (x - 1) / 2 ^ i = q := by
      have e : x - 1 = (2 ^ i - 1) + 2 ^ i * q := by
        clear h hpi hdm hq hq1 hq2 hmod hcon hxi
        omega
      rw [e, Nat.add_mul_div_left _ _ hpos, Nat.div_eq_of_lt (by omega)]
      simp
    have hpar : q % 2 = 0 := by
      rw [hq2] at hq
      omega
    have := hpi
    rw [Nat.testBit_to_div_mod, hdiv] at this
    simp only [decide_eq_true_eq] at this
    omega
  obtain ⟨j, hj, hxj⟩ := hlow
  exact ⟨j, i, hj, hi32, hxj, hxi⟩

theorem more_than_one_bit_mono (x y : Nat) (hxy : ∀ i, x.testBit i = true → y.testBit i = true)
    (h : more_than_one_bit x = true) : more_than_one_bit y = true := by
  obtain ⟨a, b, hab, hb, ha1, hb1⟩ := two_bits_of_more_than_one_bit x h
  exact more_than_one_bit_of_two y a b hab hb (hxy a ha1) (hxy b hb1)

/-! Releasing keys cannot raise a phantom. -/

theorem row_fold_bits_mono (km : Keymap) (l l2 : Bool) (inp inp2 : ScanInput) (c : Nat)
    (hsub : ∀ r, inp2.row_level c r = 0 → inp.row_level c r = 0) (rows : List Nat) :
    ∀ (acc acc2 : Scan × Nat), (∀ i, acc2.2.testBit i = true → acc.2.testBit i = true) →
      ∀ i, (rows.foldl (scan_row km l2 inp2 c) acc2).2.testBit i = true →
        (rows.foldl (scan_row km l inp c) acc).2.testBit i = true := by
  induction rows with
  | nil => intro acc acc2 h; exact h
  | cons r rs ih =>
    intro acc acc2 h
    rw [List.foldl_cons, List.foldl_cons]
    apply ih
    intro i
    unfold scan_row
    by_cases h2 : inp2.row_level c r = 0
    · rw [if_pos h2, if_pos (hsub r h2)]
      simp only [Nat.testBit_or, Bool.or_eq_true]
      rintro (h3 | h3)
      · exact Or.inl (h i h3)
      · exact Or.inr h3
    · rw [if_neg h2]
      intro h3
      split
      · simp only [Nat.testBit_or, Bool.or_eq_true]
        exact Or.inl (h i h3)
      · exact h i h3

theorem col_fold_phantom_release (km : Keymap) (l l2 : Bool) (inp inp2 : ScanInput)
    (hsub : ∀ c r, inp2.row_level c r = 0 → inp.row_level c r = 0) (cols : List Nat) :
    ∀ (s s2 : Scan),
      (∀ i, s2.rows_connected.testBit i = true → s.rows_connected.testBit i = true) →
      (s2.has_phantom_key = true → s.has_phantom_key = true) →
      (cols.foldl (scan_col km l2 inp2) s2).has_phantom_key = true →
      (cols.foldl (scan_col km l inp) s).has_phantom_key = true := by
  induction cols with
  | nil => intro s s2 _ h2; exact h2
  | cons c cs ih =>
    intro s s2 h1 h2
    rw [List.foldl_cons, List.foldl_cons]
    have hcur := row_fold_bits_mono km l l2 inp inp2 c (hsub c) (List.range ROW_NUM)
      (s, 0) (s2, 0) (fun i h => h)
    apply ih
    · intro i
      rw [scan_col_rows_connected, scan_col_rows_connected]
      simp only [Nat.testBit_or, Bool.or_eq_true]
      rintro (h3 | h3)
      · exact Or.inl (h1 i h3)
      · exact Or.inr (hcur i h3)
    · rw [scan_col_has_phantom_key, scan_col_has_phantom_key]
      intro h3
      by_cases hm : more_than_one_bit
          (((List.range ROW_NUM).foldl (scan_row km l2 inp2 c) (s2, 0)).2 &&& s2.rows_connected)
            = true
      · rw [more_than_one_bit_mono _ _ _ hm]
        · rfl
        · intro i
          simp only [Nat.testBit_and, Bool.and_eq_true]
          rintro ⟨h4, h5⟩
          exact ⟨hcur i h4, h1 i h5⟩
      · rw [if_neg hm] at h3
        rw [h2 h3]
        simp

/-- A scan that reads active only coordinates that a phantom-free scan read
active is phantom-free. -/
theorem scan_no_phantom_release (km : Keymap) (l l2 : Bool) (inp inp2 : ScanInput)
    (hsub : ∀ c r, inp2.row_level c r = 0 → inp.row_level c r = 0)
    (h : (scan km l inp).has_phantom_key = false) :
    (scan km l2 inp2).has_phantom_key = false := by
  by_contra hcon
  have h2 : (scan km l2 inp2).has_phantom_key = true := by simpa using hcon
  have := col_fold_phantom_release km l l2 inp inp2 hsub (List.range COL_NUM)
    (scan_init km) (scan_init km) (fun i h => h) (fun h => h) h2
  unfold scan at h
  rw [h] at this
  exact absurd this (by simp)

/-! ### C2 -/

set_option maxRecDepth 100000 in
theorem scan_order_nodup : scan_order.Nodup := by decide

theorem mem_scan_order (c r : Nat) (hc : c < COL_NUM) (hr : r < ROW_NUM) :
    (c, r) ∈ scan_order := by
  unfold scan_order
  rw [List.mem_flatMap]
  exact ⟨c, List.mem_range.mpr hc, List.mem_map.mpr ⟨r, List.mem_range.mpr hr, rfl⟩⟩

/-- Dropping one element of a duplicate-free list moves every later element one
place forward. -/
theorem getElem?_filter_ne {α : Type} [DecidableEq α] (p : α) :
    ∀ (L : List α), L.Nodup → ∀ i j : Nat, L[i]? = some p → i ≤ j →
      (L.filter (fun x => decide (x ≠ p)))[j]? = L[j + 1]? := by
  intro L
  induction L with
  | nil => intro _ i j h; simp at h
  | cons a L ih =>
    intro hnd i j hi hij
    obtain ⟨haL, hL⟩ := List.nodup_cons.mp hnd
    cases i with
    | zero =>
      have hap : a = p := by simpa using hi
      subst hap
      have hf : L.filter (fun x => decide (x ≠ a)) = L := by
        rw [List.filter_eq_self]
        intro x hx
        have : x ≠ a := fun e => haL (e ▸ hx)
        simpa using this
      rw [List.filter_cons_of_neg (by simp), hf, List.getElem?_cons_succ]
    | succ i =>
      have hp : L[i]? = some p := by simpa using hi
      have hpL : p ∈ L := List.getElem?_mem hp
      have hap : a ≠ p := fun e => haL (e ▸ hpL)
      cases j with
      | zero => omega
      | succ j =>
        have := ih hL i j hp (by omega)
        rw [List.filter_cons_of_pos (by simpa using hap), List.getElem?_cons_succ,
          List.getElem?_cons_succ]
        exact this

theorem plain_keys_nodup (km : Keymap) (inp : ScanInput) : (plain_keys km inp).Nodup :=
  List.Nodup.filter _ scan_order_nodup

/-- The plain keys of a scan that differs from `inp` by the release of `p`. -/
theorem plain_keys_release (km : Keymap) (inp inp2 : ScanInput) (p : Nat × Nat)
    (h : ∀ c r, inp2.row_level c r = 0 ↔ (inp.row_level c r = 0 ∧ (c, r) ≠ p)) :
    plain_keys km inp2 = (plain_keys km inp).filter (fun x => decide (x ≠ p)) := by
  unfold plain_keys
  rw [List.filter_filter]
  apply List.filter_congr
  rintro ⟨c, r⟩ _
  rw [Bool.eq_iff_iff, Bool.and_eq_true, is_plain_key_iff, is_plain_key_iff, h c r,
    decide_eq_true_eq]
  tauto

theorem keyboard_cycle_is_fn_locked (km : Keymap) (st : KbState) (inp : ScanInput) :
    (keyboard_cycle km st inp).1.is_fn_locked = st.is_fn_locked := by
  unfold keyboard_cycle
  split <;> rfl

theorem decode_of_no_phantom (km : Keymap) (st : KbState) (inp : ScanInput)
    (h : (scan km st.is_fn_locked inp).has_phantom_key = false) :
    (decode km st inp).hid = (scan km st.is_fn_locked inp).hid := by
  unfold decode
  simp [h]

/-- C2 (six-key limit). In every non-phantom scan cycle with the Fn button not
held and Fn-lock off, bytes 2..7 of the keyboard report are the first
`min n 6` active non-modifier bound keys in scan order (each as the low byte of
its logical code), followed by zeros. With seven or more such keys the seventh
gets no slot (its byte is absent unless one of the first six has the same byte),
and in the following cycle, if one of the first six is released and the rest is
held (Fn button still released), the former seventh is in the report. -/
theorem six_key_limit (km : Keymap) (st : KbState) (inp : ScanInput)
    (hlock : st.is_fn_locked = false)
    (hfn : ∀ c r, inp.BUTTON_FN_STATE c r ≠ 0)
    (hph : (scan km st.is_fn_locked inp).has_phantom_key = false) :
    (decode km st inp).hid.drop 2
        = pad6 (((plain_keys km inp).map (key_byte km)).take 6) ∧
    (∀ q, (plain_keys km inp)[6]? = some q →
        key_byte km q ∉ ((plain_keys km inp).map (key_byte km)).take 6 →
        key_byte km q ∉ (decode km st inp).hid.drop 2) ∧
    (∀ (inp2 : ScanInput) (i : Nat) (p q : Nat × Nat), i < 6 →
        (plain_keys km inp)[i]? = some p → (plain_keys km inp)[6]? = some q →
        (∀ c r, inp2.BUTTON_FN_STATE c r ≠ 0) →
        (∀ c r, inp2.row_level c r = 0 ↔ (inp.row_level c r = 0 ∧ (c, r) ≠ p)) →
        key_byte km q ∈ (decode km (keyboard_cycle km st inp).1 inp2).hid.drop 2) := by
  have hslots : (decode km st inp).hid.drop 2
      = pad6 (((plain_keys km inp).map (key_byte km)).take 6) := by
    rw [decode_of_no_phantom km st inp hph, hlock]
    exact scan_slots km inp hfn
  refine ⟨hslots, ?_, ?_⟩
  · intro q hq hnot
    rw [hslots]
    have hlen : 6 < ((plain_keys km inp).map (key_byte km)).length := by
      rw [List.length_map]
      exact (List.getElem?_eq_some.mp hq).1
    have h6 : (((plain_keys km inp).map (key_byte km)).take 6).length = 6 := by
      rw [List.length_take]; omega
    unfold pad6
    rw [h6]
    simpa using hnot
  · intro inp2 i p q hi hp hq hfn2 hrel
    have hph2 : (scan km (keyboard_cycle km st inp).1.is_fn_locked inp2).has_phantom_key
        = false :=
      scan_no_phantom_release km st.is_fn_locked _ inp inp2
        (fun c r h => ((hrel c r).mp h).1) hph
    have hl2 : (keyboard_cycle km st inp).1.is_fn_locked = false := by
      rw [keyboard_cycle_is_fn_locked, hlock]
    rw [decode_of_no_phantom km _ inp2 hph2, hl2, scan_slots km inp2 hfn2,
      plain_keys_release km inp inp2 p hrel]
    have h5 : ((plain_keys km inp).filter (fun x => decide (x ≠ p)))[5]? = some q := by
      rw [getElem?_filter_ne p _ (plain_keys_nodup km inp) i 5 hp (by omega)]
      exact hq
    have hmem : key_byte km q ∈
        (((plain_keys km inp).filter (fun x => decide (x ≠ p))).map (key_byte km)).take 6 := by
      apply List.getElem?_mem (n := 5)
      rw [List.getElem?_take_of_lt (by decide), List.getElem?_map, h5]
      rfl
    unfold pad6
    exact List.mem_append_left _ hmem

set_option maxRecDepth 100000 in
/-- Seven keys of column 4 (`j k l f ; d s` in scan order): the report holds the
first six, and once `k` is released the seventh, `s`, is reported. -/
theorem six_key_limit_witness :
    (decode sample_keymap (kb_init sample_keymap)
        (scan_of [(4, 0), (4, 1), (4, 3), (4, 4), (4, 5), (4, 6), (4, 8)])).hid.drop 2
      = [0x0d, 0x0e, 0x0f, 0x09, 0x33, 0x07] ∧
    0x16 ∈ (decode sample_keymap
        (keyboard_cycle sample_keymap (kb_init sample_keymap)
          (scan_of [(4, 0), (4, 1), (4, 3), (4, 4), (4, 5), (4, 6), (4, 8)])).1
        (scan_of [(4, 0), (4, 3), (4, 4), (4, 5), (4, 6), (4, 8)])).hid.drop 2 :=
  have h := six_key_limit sample_keymap (kb_init sample_keymap)
    (scan_of [(4, 0), (4, 1), (4, 3), (4, 4), (4, 5), (4, 6), (4, 8)])
    rfl (fun _ _ => by simp [scan_of]) (by decide)
  ⟨h.1.trans (by decide),
   h.2.2 (scan_of [(4, 0), (4, 3), (4, 4), (4, 5), (4, 6), (4, 8)]) 1 (4, 1) (4, 8)
     (by decide) (by decide) (by decide) (fun _ _ => by simp [scan_of])
     (by intro c r; simp [scan_of]; omega)⟩

/-! ### C3 -/

theorem keyboard_cycle_connected (km : Keymap) (st : KbState) (inp : ScanInput)
    (hc : inp.is_usb_connected = true) :
    keyboard_cycle km st inp =
      ({ is_fn_locked := st.is_fn_locked,
         last_is_key_pressed := (decode km st inp).is_key_pressed,
         lasthid := (decode km st inp).hid, lasthotkey := (decode km st inp).hotkey,
         lastfnfunc := (decode km st inp).fnfunc },
       (if (decode km st inp).hid ≠ st.lasthid
          then [KbEvent.keyboard_report (decode km st inp).hid] else []) ++
       (if (decode km st inp).hotkey ≠ st.lasthotkey
          then [KbEvent.consumer_report (decode km st inp).hotkey] else []) ++
       (if (decode km st inp).fnfunc ≠ st.lastfnfunc
          then [KbEvent.do_fnfunc (decode km st inp).fnfunc] else [])) := by
  unfold keyboard_cycle
  simp [hc]

theorem keyboard_reports_append (a b : List KbEvent) :
    keyboard_reports (a ++ b) = keyboard_reports a ++ keyboard_reports b := by
  induction a with
  | nil => rfl
  | cons e a ih => cases e <;> simp [keyboard_reports, ih]

theorem consumer_reports_append (a b : List KbEvent) :
    consumer_reports (a ++ b) = consumer_reports a ++ consumer_reports b := by
  induction a with
  | nil => rfl
  | cons e a ih => cases e <;> simp [consumer_reports, ih]

theorem keyboard_cycle_reports (km : Keymap) (st : KbState) (inp : ScanInput)
    (hc : inp.is_usb_connected = true) :
    keyboard_reports (keyboard_cycle km st inp).2 =
        (if (decode km st inp).hid ≠ st.lasthid then [(decode km st inp).hid] else []) ∧
    consumer_reports (keyboard_cycle km st inp).2 =
        (if (decode km st inp).hotkey ≠ st.lasthotkey then [(decode km st inp).hotkey]
         else []) := by
  rw [keyboard_cycle_connected km st inp hc]
  simp only [keyboard_reports_append, consumer_reports_append]
  constructor
  · split <;> split <;> split <;> simp [keyboard_reports]
  · split <;> split <;> split <;> simp [consumer_reports]

/-- Scanning the same readings again right after a cycle changes nothing and emits
nothing. -/
theorem keyboard_cycle_idem (km : Keymap) (st : KbState) (inp : ScanInput) :
    keyboard_cycle km (keyboard_cycle km st inp).1 inp = ((keyboard_cycle km st inp).1, []) := by
  by_cases hc : inp.is_usb_connected = true
  · by_cases hph : (scan km st.is_fn_locked inp).has_phantom_key = true
    · rw [(keyboard_cycle_frozen km st inp hph).2]
      exact (keyboard_cycle_frozen km st inp hph).2
    · have hd : ∀ st2 : KbState, st2.is_fn_locked = st.is_fn_locked →
          decode km st2 inp = decode km st inp := by
        intro st2 h2
        unfold decode
        simp [h2, hph]
      rw [keyboard_cycle_connected km _ inp hc,
        hd _ (keyboard_cycle_is_fn_locked km st inp)]
      rw [keyboard_cycle_connected km st inp hc]
      simp
  · have hc2 : inp.is_usb_connected = false := by simpa using hc
    have h1 : ∀ st2, keyboard_cycle km st2 inp = (st2, []) := by
      intro st2
      unfold keyboard_cycle
      simp [hc2]
    rw [h1, h1]

theorem run_cycles_steady (km : Keymap) (inp : ScanInput) (N : Nat) (st : KbState) :
    (run_cycles km (keyboard_cycle km st inp).1 (List.replicate N inp)).2
      = List.replicate N [] := by
  induction N with
  | zero => rfl
  | succ N ih =>
    rw [List.replicate_succ]
    show (keyboard_cycle km _ inp).2 :: (run_cycles km (keyboard_cycle km _ inp).1 _).2 = _
    rw [keyboard_cycle_idem, ih]
    rfl

/-! A scan with a single active coordinate raises no phantom. -/

theorem row_fold_inactive (km : Keymap) (l : Bool) (inp : ScanInput) (c : Nat) (rows : List Nat)
    (h : ∀ r, inp.row_level c r ≠ 0) (acc : Scan × Nat) :
    rows.foldl (scan_row km l inp c) acc = acc := by
  induction rows with
  | nil => rfl
  | cons r rs ih =>
    rw [List.foldl_cons]
    have : scan_row km l inp c acc r = acc := by
      unfold scan_row
      rw [if_neg (h r)]
    rw [this, ih]

theorem more_than_one_bit_zero : more_than_one_bit 0 = false := by decide

theorem scan_col_inactive (km : Keymap) (l : Bool) (inp : ScanInput) (c : Nat) (s : Scan)
    (h : ∀ r, inp.row_level c r ≠ 0) : scan_col km l inp s c = s := by
  unfold scan_col
  rw [row_fold_inactive km l inp c _ h]
  simp [more_than_one_bit_zero]

theorem col_fold_inactive (km : Keymap) (l : Bool) (inp : ScanInput) (cols : List Nat)
    (h : ∀ c ∈ cols, ∀ r, inp.row_level c r ≠ 0) (s : Scan) :
    cols.foldl (scan_col km l inp) s = s := by
  induction cols generalizing s with
  | nil => rfl
  | cons c cs ih =>
    rw [List.foldl_cons, scan_col_inactive km l inp c s (h c (List.mem_cons_self _ _))]
    exact ih (fun c hc => h c (List.mem_cons_of_mem _ hc)) s

theorem col_fold_single_column (km : Keymap) (l : Bool) (inp : ScanInput) (c0 : Nat)
    (h : ∀ c r, inp.row_level c r = 0 → c = c0) :
    ∀ (n lo : Nat) (s : Scan), s.rows_connected = 0 → s.has_phantom_key = false →
      ((List.range' lo n).foldl (scan_col km l inp) s).has_phantom_key = false := by
  intro n
  induction n with
  | zero => intro lo s _ h2; exact h2
  | succ n ih =>
    intro lo s h1 h2
    rw [List.range'_succ, List.foldl_cons]
    by_cases hlo : lo = c0
    · rw [col_fold_inactive km l inp (List.range' (lo + 1) n)]
      · rw [scan_col_has_phantom_key, h1, Nat.and_zero, more_than_one_bit_zero]
        simpa using h2
      · intro c hc r hr
        have := h c r hr
        rw [List.mem_range'_1] at hc
        omega
    · rw [scan_col_inactive km l inp lo s (fun r hr => hlo (h lo r hr))]
      exact ih (lo + 1) s h1 h2

theorem scan_single_column (km : Keymap) (l : Bool) (inp : ScanInput) (c0 : Nat)
    (h : ∀ c r, inp.row_level c r = 0 → c = c0) :
    (scan km l inp).has_phantom_key = false := by
  unfold scan
  rw [List.range_eq_range']
  exact col_fold_single_column km l inp c0 h COL_NUM 0 _ rfl rfl

/-- C3 (edge-triggered transmission). In every scan cycle with the host
connected, the cycle transmits a keyboard report exactly when the cycle's 8-byte
report differs from the previous cycle's (and then that report, once), and a
consumer report exactly when the hotkey code differs from the previous cycle's.
Hence, from the initial state, `N ≥ 1` identical scans that hold one bound
non-modifier key (Fn button released, key code with a nonzero low byte) transmit
one keyboard report in the first cycle and none in the later ones. -/
theorem edge_triggered (km : Keymap) :
    (∀ (st : KbState) (inp : ScanInput), inp.is_usb_connected = true →
      keyboard_reports (keyboard_cycle km st inp).2 =
          (if (decode km st inp).hid ≠ st.lasthid then [(decode km st inp).hid] else []) ∧
      consumer_reports (keyboard_cycle km st inp).2 =
          (if (decode km st inp).hotkey ≠ st.lasthotkey then [(decode km st inp).hotkey]
           else [])) ∧
    (∀ (inp : ScanInput) (c r N : Nat), c < COL_NUM → r < ROW_NUM →
      inp.is_usb_connected = true →
      (∀ c2 r2, inp.row_level c2 r2 = 0 ↔ (c2 = c ∧ r2 = r)) →
      (∀ c2 r2, inp.BUTTON_FN_STATE c2 r2 ≠ 0) →
      km.search_hid_key c r > 0 →
      ¬ (km.search_hid_key c r ≥ km.KEY_LEFTCTRL ∧ km.search_hid_key c r ≤ km.KEY_RIGHTMETA) →
      key_byte km (c, r) ≠ 0 → 1 ≤ N →
      (run_cycles km (kb_init km) (List.replicate N inp)).2.map
          (fun ev => (keyboard_reports ev).length)
        = 1 :: List.replicate (N - 1) 0) := by
  refine ⟨fun st inp hc => keyboard_cycle_reports km st inp hc, ?_⟩
  intro inp c r N hc hr hconn hact hfn hpos hmod hbyte hN
  obtain ⟨M, rfl⟩ : ∃ M, N = M + 1 := ⟨N - 1, by omega⟩
  have hph : (scan km (kb_init km).is_fn_locked inp).has_phantom_key = false :=
    scan_single_column km _ inp c (fun c2 r2 h2 => ((hact c2 r2).mp h2).1)
  have hplain : is_plain_key km inp (c, r) = true := by
    rw [is_plain_key_iff]
    exact ⟨(hact c r).mpr ⟨rfl, rfl⟩, hpos, hmod⟩
  have hmem : (c, r) ∈ plain_keys km inp :=
    List.mem_filter.mpr ⟨mem_scan_order c r hc hr, hplain⟩
  have hall : ∀ x ∈ plain_keys km inp, x = (c, r) := by
    rintro ⟨c2, r2⟩ hx
    have := (is_plain_key_iff km inp c2 r2).mp (List.mem_filter.mp hx).2
    obtain ⟨h1, h2⟩ := (hact c2 r2).mp this.1
    rw [h1, h2]
  have hhid : (decode km (kb_init km) inp).hid ≠ (kb_init km).lasthid := by
    intro heq
    have hd : (decode km (kb_init km) inp).hid.drop 2
        = pad6 (((plain_keys km inp).map (key_byte km)).take 6) := by
      rw [decode_of_no_phantom km _ inp hph]
      exact scan_slots km inp hfn
    rw [heq] at hd
    cases hpk : plain_keys km inp with
    | nil => rw [hpk] at hmem; simp at hmem
    | cons x xs =>
      have hx : x = (c, r) := hall x (by rw [hpk]; exact List.mem_cons_self _ _)
      rw [hpk, hx] at hd
      simp [kb_init, hid_zero, pad6] at hd
      exact hbyte hd.1.symm
  show ((keyboard_cycle km (kb_init km) inp).2 ::
      (run_cycles km (keyboard_cycle km (kb_init km) inp).1 (List.replicate M inp)).2).map _ = _
  rw [run_cycles_steady, List.map_cons, (keyboard_cycle_reports km _ inp hconn).1, if_pos hhid]
  simp [keyboard_reports]

/-- Holding `a` for three identical scans from the initial state: one keyboard
report, in the first cycle. -/
theorem edge_triggered_witness :
    (run_cycles sample_keymap (kb_init sample_keymap)
        (List.replicate 3 (scan_of [(4, 10)]))).2.map (fun ev => (keyboard_reports ev).length)
      = [1, 0, 0] :=
  (edge_triggered sample_keymap).2 (scan_of [(4, 10)]) 4 10 3 (by decide) (by decide) rfl
    (by intro c r; simp [scan_of]) (fun _ _ => by simp [scan_of])
    (by decide) (by decide) (by decide) (by decide)

/-! ### The scan as a fold of the key handling over the scan order -/

theorem key_step_with_phantom (km : Keymap) (l : Bool) (inp : ScanInput) (c r : Nat) (s : Scan)
    (p : Bool) (rc : Nat) :
    key_step km l inp c r (with_phantom s p rc) = with_phantom (key_step km l inp c r s) p rc := by
  unfold key_step with_phantom
  dsimp only
  split_ifs <;> first | rfl | (split <;> rfl)

theorem key_fold_with_phantom (km : Keymap) (l : Bool) (inp : ScanInput) (ps : List (Nat × Nat)) :
    ∀ (s : Scan) (p : Bool) (rc : Nat),
      key_fold km l inp ps (with_phantom s p rc) = with_phantom (key_fold km l inp ps s) p rc := by
  induction ps with
  | nil => intro s p rc; rfl
  | cons q qs ih =>
    intro s p rc
    unfold key_fold at ih ⊢
    rw [List.foldl_cons, List.foldl_cons]
    have : key_fold_step km l inp (with_phantom s p rc) q
        = with_phantom (key_fold_step km l inp s q) p rc := by
      unfold key_fold_step
      split
      · exact key_step_with_phantom km l inp q.1 q.2 s p rc
      · rfl
    rw [this, ih]

theorem row_fold_key_fold (km : Keymap) (l : Bool) (inp : ScanInput) (c : Nat) (rows : List Nat) :
    ∀ acc : Scan × Nat, (rows.foldl (scan_row km l inp c) acc).1
      = key_fold km l inp (rows.map (fun r => (c, r))) acc.1 := by
  induction rows with
  | nil => intro acc; rfl
  | cons r rs ih =>
    intro acc
    rw [List.foldl_cons, ih]
    unfold key_fold
    rw [List.map_cons, List.foldl_cons]
    congr 1
    unfold scan_row key_fold_step
    split <;> rfl

theorem scan_col_key_fold (km : Keymap) (l : Bool) (inp : ScanInput) (s : Scan) (c : Nat) :
    ∃ p rc, scan_col km l inp s c
      = with_phantom (key_fold km l inp ((List.range ROW_NUM).map (fun r => (c, r))) s) p rc := by
  unfold scan_col
  dsimp only
  rw [row_fold_key_fold]
  exact ⟨_, _, rfl⟩

theorem col_fold_key_fold (km : Keymap) (l : Bool) (inp : ScanInput) (cols : List Nat) :
    ∀ s : Scan, ∃ p rc, cols.foldl (scan_col km l inp) s
      = with_phantom (key_fold km l inp
          (cols.flatMap (fun c => (List.range ROW_NUM).map (fun r => (c, r)))) s) p rc := by
  induction cols with
  | nil => intro s; exact ⟨s.has_phantom_key, s.rows_connected, rfl⟩
  | cons c cs ih =>
    intro s
    rw [List.foldl_cons]
    obtain ⟨p1, rc1, h1⟩ := scan_col_key_fold km l inp s c
    obtain ⟨p2, rc2, h2⟩ := ih (scan_col km l inp s c)
    refine ⟨p2, rc2, ?_⟩
    rw [h2, h1, key_fold_with_phantom, List.flatMap_cons]
    unfold key_fold
    rw [List.foldl_append]
    rfl

/-- The decoding locals after the scan are those of the key handling folded over
the scan order. -/
theorem scan_eq_key_fold (km : Keymap) (l : Bool) (inp : ScanInput) :
    ∃ p rc, scan km l inp = with_phantom (key_fold km l inp scan_order (scan_init km)) p rc :=
  col_fold_key_fold km l inp (List.range COL_NUM) (scan_init km)

theorem scan_decoded_eq (km : Keymap) (l : Bool) (inp : ScanInput) :
    scan_decoded (scan km l inp) = scan_decoded (key_fold km l inp scan_order (scan_init km)) := by
  obtain ⟨p, rc, h⟩ := scan_eq_key_fold km l inp
  rw [h]
  rfl

/-! ### C11 -/

theorem search_hid_key_in_unbound (tbl : List (Nat × Nat × Int)) (c r : Nat)
    (h : ∀ e ∈ tbl, ¬ (e.1 = c ∧ e.2.1 = r)) : search_hid_key_in tbl c r = -1 := by
  unfold search_hid_key_in
  have : tbl.find? (fun e => e.1 == c && e.2.1 == r) = none := by
    rw [List.find?_eq_none]
    intro e he
    have := h e he
    simpa using this
  rw [this]

theorem key_fold_step_unbound (km : Keymap) (l : Bool) (inp inp2 : ScanInput) (c r : Nat)
    (hun : km.search_hid_key c r ≤ 0)
    (hsame : ∀ c2 r2, (c2, r2) ≠ (c, r) → inp2.row_level c2 r2 = inp.row_level c2 r2)
    (hfn : inp2.BUTTON_FN_STATE = inp.BUTTON_FN_STATE) (s : Scan) (p : Nat × Nat) :
    key_fold_step km l inp2 s p = key_fold_step km l inp s p := by
  unfold key_fold_step
  by_cases hp : p = (c, r)
  · subst hp
    have hk : ∀ i : ScanInput, key_step km l i c r s = s :=
      fun i => key_step_unbound km l i c r s (by omega)
    simp only [hk, ite_self]
  · have hrow : inp2.row_level p.1 p.2 = inp.row_level p.1 p.2 := hsame p.1 p.2 hp
    have hstep : key_step km l inp2 p.1 p.2 s = key_step km l inp p.1 p.2 s := by
      unfold key_step
      rw [hfn]
    rw [hrow, hstep]

set_option maxRecDepth 100000 in
/-- C11, the claim as stated fails. The coordinate `(0, 3)` is in neither sample
table and its lookup gives no binding, yet with `h`, `j`, `l` held at `(0, 0)`,
`(4, 0)`, `(4, 3)` the decoded result depends on whether it reads active: without
it the report holds the three keys, with it columns 0 and 4 share rows 0 and 3,
the phantom test fires and the cycle keeps the previous (empty) result. -/
theorem unbound_coordinate_counterexample :
    sample_keymap.search_hid_key 0 3 ≤ 0 ∧ sample_keymap.search_fn 0 3 = none ∧
    (decode sample_keymap (kb_init sample_keymap) (scan_of [(0, 0), (4, 0), (4, 3)])).hid
      = [0, 0, 0x0b, 0x0d, 0x0f, 0, 0, 0] ∧
    (decode sample_keymap (kb_init sample_keymap)
        (scan_of [(0, 0), (0, 3), (4, 0), (4, 3)])).hid
      = [0, 0, 0, 0, 0, 0, 0, 0] ∧
    decode sample_keymap (kb_init sample_keymap) (scan_of [(0, 0), (0, 3), (4, 0), (4, 3)])
      ≠ decode sample_keymap (kb_init sample_keymap) (scan_of [(0, 0), (4, 0), (4, 3)]) := by
  decide

/-- C11, amended. For every coordinate `(c, r)` that is not in the keymap table the
lookup gives no binding (`search_hid_key c r ≤ 0`), and for every scan the values
decoded by the column/row scan (keyboard report, hotkey code, Fn-function code,
`is_key_pressed`, before the phantom freeze) are the same whether or not that
coordinate reads active; the decoded result of the cycle is therefore the same
whenever the coordinate's reading does not change `has_phantom_key`. (An active
unbound coordinate still counts as a connected row in the phantom test.) -/
theorem unbound_coordinate (kb : List (Nat × Nat × Int)) (km : Keymap)
    (hkm : km.search_hid_key = search_hid_key_in kb) (c r : Nat)
    (hkb : ∀ e ∈ kb, ¬ (e.1 = c ∧ e.2.1 = r))
    (st : KbState) (inp inp2 : ScanInput)
    (hsame : ∀ c2 r2, (c2, r2) ≠ (c, r) → inp2.row_level c2 r2 = inp.row_level c2 r2)
    (hfn : inp2.BUTTON_FN_STATE = inp.BUTTON_FN_STATE) :
    km.search_hid_key c r ≤ 0 ∧
    scan_decoded (scan km st.is_fn_locked inp2) = scan_decoded (scan km st.is_fn_locked inp) ∧
    ((scan km st.is_fn_locked inp2).has_phantom_key = (scan km st.is_fn_locked inp).has_phantom_key →
      decode km st inp2 = decode km st inp) := by
  have hun : km.search_hid_key c r ≤ 0 := by
    rw [hkm, search_hid_key_in_unbound kb c r hkb]
    decide
  have hdec : scan_decoded (scan km st.is_fn_locked inp2)
      = scan_decoded (scan km st.is_fn_locked inp) := by
    rw [scan_decoded_eq, scan_decoded_eq]
    have : key_fold_step km st.is_fn_locked inp2 = key_fold_step km st.is_fn_locked inp := by
      funext s p
      exact key_fold_step_unbound km st.is_fn_locked inp inp2 c r hun hsame hfn s p
    unfold key_fold
    rw [this]
  refine ⟨hun, hdec, ?_⟩
  intro hph
  have e : ∀ i : ScanInput, decode km st i =
      if (scan km st.is_fn_locked i).has_phantom_key = true then previous st
      else scan_decoded (scan km st.is_fn_locked i) := fun i => rfl
  rw [e, e, hph, hdec]

set_option maxRecDepth 100000 in
/-- The amended claim on a concrete scan: `h` and `l` held, the unbound `(0, 3)`
read active as well; no phantom either way, and the same report. -/
theorem unbound_coordinate_witness :
    decode sample_keymap (kb_init sample_keymap) (scan_of [(0, 0), (0, 3), (4, 3)])
      = decode sample_keymap (kb_init sample_keymap) (scan_of [(0, 0), (4, 3)]) :=
  (unbound_coordinate kbtbl_sample sample_keymap rfl 0 3 (by decide) (kb_init sample_keymap)
    (scan_of [(0, 0), (4, 3)]) (scan_of [(0, 0), (0, 3), (4, 3)])
    (by intro c2 r2 h; simp only [scan_of, List.mem_cons, Prod.mk.injEq, List.mem_singleton,
          List.not_mem_nil, or_false, ne_eq] at h ⊢; by_cases h1 : c2 = 0 ∧ r2 = 3
        · exact absurd h1 h
        · simp [h1])
    rfl).2.2 (by decide)

/-! ### C13 -/

set_option maxRecDepth 100000 in
/-- C13, the claim as stated fails. The key at `(0, 1)`, the coordinate of the
`FN_FNLOCK` entry, pressed with the Fn button held or released, leaves
`is_fn_locked` at its initial value `false`; held with Fn it only puts the low
byte of the entry's function code into the keyboard report. -/
theorem fn_lock_toggle_counterexample :
    (kb_init fnlock_keymap).is_fn_locked = false ∧
    fnlock_keymap.search_fn 0 1 = some { hidcode := 0, fncode := 1 } ∧
    (keyboard_cycle fnlock_keymap (kb_init fnlock_keymap) (scan_fn_of [(0, 1)])).1.is_fn_locked
      = false ∧
    (keyboard_cycle fnlock_keymap (kb_init fnlock_keymap) (scan_of [(0, 1)])).1.is_fn_locked
      = false ∧
    (keyboard_cycle fnlock_keymap (kb_init fnlock_keymap) (scan_fn_of [(0, 1)])).2
      = [KbEvent.keyboard_report [0, 0, 1, 0, 0, 0, 0, 0]] := by
  decide

/-- C13, amended. No scan cycle changes the Fn-lock latch, whichever keys are
pressed (the key of the `FN_FNLOCK` entry included): `do_fnfunc` is an empty hook
and nothing else assigns `is_fn_locked`, so over any sequence of cycles the latch
keeps its value, which is `false` from the start of the task. -/
theorem fn_lock_never_toggles (km : Keymap) (st : KbState) (inputs : List ScanInput) :
    (run_cycles km st inputs).1.is_fn_locked = st.is_fn_locked ∧
    (run_cycles km (kb_init km) inputs).1.is_fn_locked = false := by
  have h : ∀ (ins : List ScanInput) (s : KbState),
      (run_cycles km s ins).1.is_fn_locked = s.is_fn_locked := by
    intro ins
    induction ins with
    | nil => intro s; rfl
    | cons i rest ih =>
      intro s
      show (run_cycles km (keyboard_cycle km s i).1 rest).1.is_fn_locked = _
      rw [ih, keyboard_cycle_is_fn_locked]
  exact ⟨h inputs st, h inputs (kb_init km)⟩

/-! ### A scan with a single active coordinate -/

theorem key_fold_inactive (km : Keymap) (l : Bool) (inp : ScanInput) (ps : List (Nat × Nat))
    (h : ∀ p ∈ ps, inp.row_level p.1 p.2 ≠ 0) (s : Scan) : key_fold km l inp ps s = s := by
  induction ps generalizing s with
  | nil => rfl
  | cons q qs ih =>
    unfold key_fold at ih ⊢
    rw [List.foldl_cons]
    have : key_fold_step km l inp s q = s := by
      unfold key_fold_step
      rw [if_neg (h q (List.mem_cons_self _ _))]
    rw [this]
    exact ih (fun p hp => h p (List.mem_cons_of_mem _ hp)) s

theorem key_fold_single (km : Keymap) (l : Bool) (inp : ScanInput) (c r : Nat)
    (hact : ∀ c2 r2, inp.row_level c2 r2 = 0 ↔ (c2 = c ∧ r2 = r)) :
    ∀ (ps : List (Nat × Nat)), ps.Nodup → (c, r) ∈ ps → ∀ s : Scan,
      key_fold km l inp ps s = key_step km l inp c r s := by
  intro ps
  induction ps with
  | nil => intro _ h; simp at h
  | cons q qs ih =>
    intro hnd hmem s
    obtain ⟨hq, hqs⟩ := List.nodup_cons.mp hnd
    unfold key_fold
    rw [List.foldl_cons]
    by_cases hqe : q = (c, r)
    · subst hqe
      have h1 : key_fold_step km l inp s (c, r) = key_step km l inp c r s := by
        unfold key_fold_step
        rw [if_pos ((hact c r).mpr ⟨rfl, rfl⟩)]
      rw [h1]
      exact key_fold_inactive km l inp qs (fun p hp hz => by
        have := (hact p.1 p.2).mp hz
        apply hq
        have e : p = (c, r) := Prod.ext this.1 this.2
        rw [← e]; exact hp) _
    · have h1 : key_fold_step km l inp s q = s := by
        unfold key_fold_step
        rw [if_neg]
        intro hz
        have := (hact q.1 q.2).mp hz
        exact hqe (Prod.ext this.1 this.2)
      rw [h1]
      rcases List.mem_cons.mp hmem with h | h
      · exact absurd h.symm hqe
      · exact ih hqs h s

/-- With a single active coordinate, the decoding locals after the scan are those
of one key handling from the initial locals, and no phantom is raised. -/
theorem scan_single_key (km : Keymap) (l : Bool) (inp : ScanInput) (c r : Nat)
    (hc : c < COL_NUM) (hr : r < ROW_NUM)
    (hact : ∀ c2 r2, inp.row_level c2 r2 = 0 ↔ (c2 = c ∧ r2 = r)) :
    scan_decoded (scan km l inp) = scan_decoded (key_step km l inp c r (scan_init km)) ∧
    (scan km l inp).has_phantom_key = false := by
  constructor
  · rw [scan_decoded_eq, key_fold_single km l inp c r hact scan_order scan_order_nodup
      (mem_scan_order c r hc hr)]
  · exact scan_single_column km l inp c (fun c2 r2 h2 => ((hact c2 r2).mp h2).1)

theorem decode_single_key (km : Keymap) (st : KbState) (inp : ScanInput) (c r : Nat)
    (hc : c < COL_NUM) (hr : r < ROW_NUM)
    (hact : ∀ c2 r2, inp.row_level c2 r2 = 0 ↔ (c2 = c ∧ r2 = r)) :
    decode km st inp = scan_decoded (key_step km st.is_fn_locked inp c r (scan_init km)) := by
  obtain ⟨h1, h2⟩ := scan_single_key km st.is_fn_locked inp c r hc hr hact
  have e : decode km st inp =
      if (scan km st.is_fn_locked inp).has_phantom_key = true then previous st
      else scan_decoded (scan km st.is_fn_locked inp) := rfl
  rw [e, h2, h1]
  rfl

/-! ### C14 -/

theorem fnfunc_calls_append (a b : List KbEvent) :
    fnfunc_calls (a ++ b) = fnfunc_calls a ++ fnfunc_calls b := by
  induction a with
  | nil => rfl
  | cons e a ih => cases e <;> simp [fnfunc_calls, ih]

/-- The key handling with the Fn button held, outside the locked F1..F12 case, for
a key with an Fn-table entry and a free slot. -/
theorem key_step_fn_held (km : Keymap) (l : Bool) (inp : ScanInput) (c r : Nat) (s : Scan)
    (fnitem : fn_keytable_t)
    (hpos : km.search_hid_key c r > 0) (hfn : inp.BUTTON_FN_STATE c r = 0)
    (hl : ¬ (l = true ∧ km.search_hid_key c r ≥ km.KEY_F1 ∧ km.search_hid_key c r ≤ km.KEY_F12))
    (hitem : km.search_fn c r = some fnitem) (hfree : s.nr_hidkey < 6) :
    key_step km l inp c r s =
      { s with hid := s.hid.set (2 + s.nr_hidkey) (fnitem.fncode % 256),
               nr_hidkey := s.nr_hidkey + 1, is_key_pressed := true, hotkey := 0 } := by
  unfold key_step
  dsimp only
  rw [if_pos hpos, if_neg (by simp [hfn]), if_neg hl, hitem]
  dsimp only
  rw [if_pos hfree]

set_option maxRecDepth 100000 in
/-- C14, the claim as stated fails. With the Fn button held and `f` pressed at
`(4, 4)`, whose Fn-table entry has the function code 0xe3, the function code is
written into the keyboard report buffer and the report is transmitted; the hook
`do_fnfunc` is not called. -/
theorem fncode_local_counterexample :
    sample_keymap.search_fn 4 4 = some { hidcode := 0, fncode := 0xe3 } ∧
    (keyboard_cycle sample_keymap (kb_init sample_keymap) (scan_fn_of [(4, 4)])).2
      = [KbEvent.keyboard_report [0, 0, 0xe3, 0, 0, 0, 0, 0]] := by
  decide

/-- C14, amended. In every scan cycle with the host connected, the hook `do_fnfunc`
is called exactly when the cycle's `fnfunc` differs from the previous cycle's,
once, with that value. But an Fn-table function code also reaches the keyboard
report: a bound key with an Fn-table entry, handled with the Fn button held
(outside the case of an F1..F12 key under Fn-lock) while a key slot is free, has
the low byte of the entry's function code written into the next free slot; so a
cycle with Fn-lock off in which only such a key reads active decodes the report
`[0, 0, fncode mod 256, 0, 0, 0, 0, 0]`, which is transmitted if it differs from
the previous one. -/
theorem fncode_local (km : Keymap) (st : KbState) (inp : ScanInput)
    (hconn : inp.is_usb_connected = true) :
    fnfunc_calls (keyboard_cycle km st inp).2 =
        (if (decode km st inp).fnfunc ≠ st.lastfnfunc then [(decode km st inp).fnfunc]
         else []) ∧
    (∀ (c r : Nat) (s : Scan) (fnitem : fn_keytable_t),
        km.search_hid_key c r > 0 → inp.BUTTON_FN_STATE c r = 0 →
        ¬ (st.is_fn_locked = true ∧ km.search_hid_key c r ≥ km.KEY_F1 ∧
            km.search_hid_key c r ≤ km.KEY_F12) →
        km.search_fn c r = some fnitem → s.nr_hidkey < 6 →
        (key_step km st.is_fn_locked inp c r s).hid
          = s.hid.set (2 + s.nr_hidkey) (fnitem.fncode % 256)) ∧
    (∀ (c r : Nat) (fnitem : fn_keytable_t), c < COL_NUM → r < ROW_NUM →
        (∀ c2 r2, inp.row_level c2 r2 = 0 ↔ (c2 = c ∧ r2 = r)) →
        km.search_hid_key c r > 0 → inp.BUTTON_FN_STATE c r = 0 →
        st.is_fn_locked = false → km.search_fn c r = some fnitem →
        (decode km st inp).hid = [0, 0, fnitem.fncode % 256, 0, 0, 0, 0, 0] ∧
        keyboard_reports (keyboard_cycle km st inp).2 =
          (if [0, 0, fnitem.fncode % 256, 0, 0, 0, 0, 0] ≠ st.lasthid
            then [[0, 0, fnitem.fncode % 256, 0, 0, 0, 0, 0]] else [])) := by
  refine ⟨?_, ?_, ?_⟩
  · rw [keyboard_cycle_connected km st inp hconn]
    simp only [fnfunc_calls_append]
    split <;> split <;> split <;> simp [fnfunc_calls]
  · intro c r s fnitem hpos hfn hl hitem hfree
    rw [key_step_fn_held km _ inp c r s fnitem hpos hfn hl hitem hfree]
  · intro c r fnitem hc hr hact hpos hfn hlock hitem
    have hd : (decode km st inp).hid = [0, 0, fnitem.fncode % 256, 0, 0, 0, 0, 0] := by
      rw [decode_single_key km st inp c r hc hr hact,
        key_step_fn_held km _ inp c r (scan_init km) fnitem hpos hfn (by simp [hlock]) hitem
          (by show 0 < 6; omega)]
      rfl
    refine ⟨hd, ?_⟩
    rw [(keyboard_cycle_reports km st inp hconn).1, hd]

set_option maxRecDepth 100000 in
/-- The amended claim on the concrete cycle: Fn and `f` held from the initial state,
the report carries the function code 0xe3 of the Fn entry. -/
theorem fncode_local_witness :
    keyboard_reports (keyboard_cycle sample_keymap (kb_init sample_keymap)
        (scan_fn_of [(4, 4)])).2 = [[0, 0, 0xe3, 0, 0, 0, 0, 0]] :=
  ((fncode_local sample_keymap (kb_init sample_keymap) (scan_fn_of [(4, 4)]) rfl).2.2
    4 4 { hidcode := 0, fncode := 0xe3 } (by decide) (by decide)
    (by intro c r; simp [scan_fn_of]) (by decide) rfl rfl (by decide)).2.trans (by decide)

/-! ### C15 -/

theorem drop_two_set_zero (l : List Nat) (v : Nat) : (l.set 0 v).drop 2 = l.drop 2 := by
  cases l with
  | nil => rfl
  | cons a t => rfl

theorem key_step_hotkey_slots (km : Keymap) (l : Bool) (inp : ScanInput) (c r : Nat) (s : Scan)
    (h : s.hotkey ≠ 0 → s.hid.drop 2 = [0, 0, 0, 0, 0, 0]) :
    (key_step km l inp c r s).hotkey ≠ 0 →
      (key_step km l inp c r s).hid.drop 2 = [0, 0, 0, 0, 0, 0] := by
  unfold key_step
  dsimp only
  split_ifs <;> (try split) <;>
    first
    | exact h
    | (intro h2
       first
       | exact absurd rfl h2
       | rfl
       | (rw [drop_two_set_zero]; exact h h2))

theorem key_fold_hotkey_slots (km : Keymap) (l : Bool) (inp : ScanInput)
    (ps : List (Nat × Nat)) :
    ∀ s : Scan, (s.hotkey ≠ 0 → s.hid.drop 2 = [0, 0, 0, 0, 0, 0]) →
      (key_fold km l inp ps s).hotkey ≠ 0 →
        (key_fold km l inp ps s).hid.drop 2 = [0, 0, 0, 0, 0, 0] := by
  induction ps with
  | nil => intro s h; exact h
  | cons q qs ih =>
    intro s h
    unfold key_fold at ih ⊢
    rw [List.foldl_cons]
    apply ih
    unfold key_fold_step
    split
    · exact key_step_hotkey_slots km l inp q.1 q.2 s h
    · exact h

/-- C15 (hotkey and plain keys are mutually exclusive). For every key table, Fn
table, Fn-lock value, Fn-button reading and matrix state, at the end of the
column/row scan (before the phantom freeze) a nonzero consumer hotkey code
implies that the six key slots, bytes 2..7 of the keyboard report, are all
zero. -/
theorem hotkey_excludes_keys (km : Keymap) (is_fn_locked : Bool) (inp : ScanInput)
    (h : (scan km is_fn_locked inp).hotkey ≠ 0) :
    (scan km is_fn_locked inp).hid.drop 2 = [0, 0, 0, 0, 0, 0] := by
  have e := scan_decoded_eq km is_fn_locked inp
  have eh : (scan km is_fn_locked inp).hid
      = (key_fold km is_fn_locked inp scan_order (scan_init km)).hid := congrArg Decoded.hid e
  have ek : (scan km is_fn_locked inp).hotkey
      = (key_fold km is_fn_locked inp scan_order (scan_init km)).hotkey :=
    congrArg Decoded.hotkey e
  rw [eh]
  rw [ek] at h
  exact key_fold_hotkey_slots km is_fn_locked inp scan_order (scan_init km)
    (fun h0 => absurd rfl h0) h

set_option maxRecDepth 100000 in
/-- Fn-lock engaged, `h` and then F8 with its consumer entry held: the hotkey code
is 0xe9 and the key slots are empty. -/
theorem hotkey_excludes_keys_witness :
    (scan hotkey_keymap true (scan_of [(0, 0), (1, 3)])).hotkey = 0xe9 ∧
    (scan hotkey_keymap true (scan_of [(0, 0), (1, 3)])).hid.drop 2 = [0, 0, 0, 0, 0, 0] :=
  ⟨by decide, hotkey_excludes_keys hotkey_keymap true (scan_of [(0, 0), (1, 3)]) (by decide)⟩

/-! ### C16 -/

/-- The invariant of byte 0: the buffer has its eight bytes and bit `b` of the
modifier byte is set. -/
theorem key_step_modifier_bit_kept (km : Keymap) (l : Bool) (inp : ScanInput) (c r : Nat)
    (s : Scan) (b : Nat) (hb : b < 8) (hno : ¬ hotkey_hit km l inp c r)
    (hact : inp.row_level c r = 0)
    (h : s.hid.length = 8 ∧ (s.hid.getD 0 0).testBit b = true) :
    (key_step km l inp c r s).hid.length = 8 ∧
      ((key_step km l inp c r s).hid.getD 0 0).testBit b = true := by
  obtain ⟨hlen, hbit⟩ := h
  obtain ⟨m0, t, ht⟩ : ∃ m0 t, s.hid = m0 :: t := by
    cases hs : s.hid with
    | nil => rw [hs] at hlen; simp at hlen
    | cons a t => exact ⟨a, t, rfl⟩
  have hm0 : m0.testBit b = true := by
    rw [ht] at hbit
    simpa using hbit
  have hset : ∀ (k v : Nat), ((s.hid.set (2 + k) v).length = 8 ∧
      ((s.hid.set (2 + k) v).getD 0 0).testBit b = true) := by
    intro k v
    refine ⟨by rw [List.length_set]; exact hlen, ?_⟩
    rw [ht, Nat.add_comm 2 k]
    simpa using hm0
  have hset2 : ∀ (v : Nat), ((s.hid.set 2 v).length = 8 ∧
      ((s.hid.set 2 v).getD 0 0).testBit b = true) := fun v => hset 0 v
  have hkeep : s.hid.length = 8 ∧ (s.hid.getD 0 0).testBit b = true := ⟨hlen, hbit⟩
  unfold hotkey_hit at hno
  by_cases h1 : km.search_hid_key c r > 0
  · by_cases h2 : inp.BUTTON_FN_STATE c r ≠ 0
    · by_cases h3 : km.search_hid_key c r ≥ km.KEY_LEFTCTRL ∧
          km.search_hid_key c r ≤ km.KEY_RIGHTMETA
      · rw [key_step_modifier km l inp c r s h1 h2 h3]
        refine ⟨by show (s.hid.set 0 _).length = 8; rw [List.length_set]; exact hlen, ?_⟩
        show ((s.hid.set 0 _).getD 0 0).testBit b = true
        rw [ht]
        simp only [List.set_cons_zero, List.getD_cons_zero]
        rw [show (256 : Nat) = 2 ^ 8 from rfl, Nat.testBit_mod_two_pow, Nat.testBit_or, hm0]
        simp [hb]
      · by_cases h4 : l = true ∧ km.search_hid_key c r ≥ km.KEY_F1 ∧
            km.search_hid_key c r ≤ km.KEY_F12
        · have hnone : km.search_fn c r = none := by
            by_contra hne
            exact hno ⟨h4.1, hact, h1, h2, h3, h4.2.1, h4.2.2, hne⟩
          unfold key_step
          dsimp only
          rw [if_pos h1, if_pos h2, if_neg h3, if_pos h4, hnone]
          exact hkeep
        · unfold key_step
          dsimp only
          rw [if_pos h1, if_pos h2, if_neg h3, if_neg h4]
          split
          · exact hset _ _
          · exact hkeep
    · by_cases h4 : l = true ∧ km.search_hid_key c r ≥ km.KEY_F1 ∧
          km.search_hid_key c r ≤ km.KEY_F12
      · unfold key_step
        dsimp only
        rw [if_pos h1, if_neg h2, if_pos h4]
        split
        · exact hset2 _
        · exact hkeep
      · unfold key_step
        dsimp only
        rw [if_pos h1, if_neg h2, if_neg h4]
        cases hitem : km.search_fn c r with
        | none => exact hkeep
        | some fnitem =>
          dsimp only
          split
          · exact hset _ _
          · exact hkeep
  · rw [key_step_unbound km l inp c r s h1]
    exact hkeep

theorem key_fold_modifier_bit_kept (km : Keymap) (l : Bool) (inp : ScanInput) (b : Nat)
    (hb : b < 8) (ps : List (Nat × Nat)) (hno : ∀ p ∈ ps, ¬ hotkey_hit km l inp p.1 p.2) :
    ∀ s : Scan, (s.hid.length = 8 ∧ (s.hid.getD 0 0).testBit b = true) →
      (key_fold km l inp ps s).hid.length = 8 ∧
        ((key_fold km l inp ps s).hid.getD 0 0).testBit b = true := by
  induction ps with
  | nil => intro s h; exact h
  | cons q qs ih =>
    intro s h
    unfold key_fold at ih ⊢
    rw [List.foldl_cons]
    apply ih (fun p hp => hno p (List.mem_cons_of_mem _ hp))
    unfold key_fold_step
    split
    · rename_i hact
      exact key_step_modifier_bit_kept km l inp q.1 q.2 s b hb
        (hno q (List.mem_cons_self _ _)) hact h
    · exact h

theorem key_step_hid_length (km : Keymap) (l : Bool) (inp : ScanInput) (c r : Nat) (s : Scan)
    (h : s.hid.length = 8) : (key_step km l inp c r s).hid.length = 8 := by
  unfold key_step
  dsimp only
  split_ifs <;> (try split) <;>
    first
    | exact h
    | rfl
    | (show (List.set _ _ _).length = 8; rw [List.length_set]; exact h)

theorem key_fold_hid_length (km : Keymap) (l : Bool) (inp : ScanInput) (ps : List (Nat × Nat)) :
    ∀ s : Scan, s.hid.length = 8 → (key_fold km l inp ps s).hid.length = 8 := by
  induction ps with
  | nil => intro s h; exact h
  | cons q qs ih =>
    intro s h
    unfold key_fold at ih ⊢
    rw [List.foldl_cons]
    apply ih
    unfold key_fold_step
    split
    · exact key_step_hid_length km l inp q.1 q.2 s h
    · exact h

set_option maxRecDepth 100000 in
theorem scan_order_sorted : scan_order.Pairwise scanned_after := by decide

/-- The modifier bit after the scan, given that no hotkey branch is taken later. -/
theorem scan_modifier_bit (km : Keymap) (l : Bool) (inp : ScanInput) (c r : Nat)
    (hc : c < COL_NUM) (hr : r < ROW_NUM)
    (hact : inp.row_level c r = 0) (hfn : inp.BUTTON_FN_STATE c r ≠ 0)
    (hpos : km.search_hid_key c r > 0)
    (hmod : km.search_hid_key c r ≥ km.KEY_LEFTCTRL ∧ km.search_hid_key c r ≤ km.KEY_RIGHTMETA)
    (hno : ∀ c2 r2, scanned_after (c, r) (c2, r2) → ¬ hotkey_hit km l inp c2 r2) :
    ((scan km l inp).hid.getD 0 0).testBit ((km.search_hid_key c r).toNat &&& 7) = true := by
  have eh : (scan km l inp).hid = (key_fold km l inp scan_order (scan_init km)).hid :=
    congrArg Decoded.hid (scan_decoded_eq km l inp)
  rw [eh]
  obtain ⟨pre, post, hsplit⟩ := List.append_of_mem (mem_scan_order c r hc hr)
  have hsorted := scan_order_sorted
  rw [hsplit, List.pairwise_append] at hsorted
  have hpost : ∀ p ∈ post, scanned_after (c, r) p := (List.pairwise_cons.mp hsorted.2.1).1
  have hb : (km.search_hid_key c r).toNat &&& 7 < 8 :=
    lt_of_le_of_lt Nat.and_le_right (by decide)
  rw [hsplit]
  unfold key_fold
  rw [List.foldl_append, List.foldl_cons]
  have hlen : (List.foldl (key_fold_step km l inp) (scan_init km) pre).hid.length = 8 :=
    key_fold_hid_length km l inp pre (scan_init km) rfl
  have hstep : key_fold_step km l inp (List.foldl (key_fold_step km l inp) (scan_init km) pre)
      (c, r) = key_step km l inp c r (List.foldl (key_fold_step km l inp) (scan_init km) pre) := by
    unfold key_fold_step
    rw [if_pos hact]
  rw [hstep]
  refine (key_fold_modifier_bit_kept km l inp _ hb post
    (fun p hp => hno p.1 p.2 (hpost p hp)) _ ⟨key_step_hid_length km l inp c r _ hlen, ?_⟩).2
  rw [key_step_modifier km l inp c r _ hpos hfn hmod]
  obtain ⟨m0, t, ht⟩ : ∃ m0 t,
      (List.foldl (key_fold_step km l inp) (scan_init km) pre).hid = m0 :: t := by
    cases hs : (List.foldl (key_fold_step km l inp) (scan_init km) pre).hid with
    | nil => rw [hs] at hlen; simp at hlen
    | cons a t => exact ⟨a, t, rfl⟩
  show ((List.set _ 0 _).getD 0 0).testBit _ = true
  rw [ht]
  simp only [List.set_cons_zero, List.getD_cons_zero]
  rw [show (256 : Nat) = 2 ^ 8 from rfl, Nat.testBit_mod_two_pow, Nat.testBit_or,
    Nat.one_shiftLeft, Nat.testBit_two_pow]
  simp [hb]

/-- The latch over a run of cycles: nothing assigns it. -/
theorem run_cycles_is_fn_locked (km : Keymap) :
    ∀ (inputs : List ScanInput) (st : KbState),
      (run_cycles km st inputs).1.is_fn_locked = st.is_fn_locked := by
  intro inputs
  induction inputs with
  | nil => intro st; rfl
  | cons i rest ih =>
    intro st
    show (run_cycles km (keyboard_cycle km st i).1 rest).1.is_fn_locked = _
    rw [ih, keyboard_cycle_is_fn_locked]

/-- The handling of an active modifier key with the Fn button released (line 88),
whatever the latch: its bit is set in byte 0, and the key slots and the slot
count are left as they were. -/
theorem key_step_modifier_sets_bit (km : Keymap) (l : Bool) (inp : ScanInput) (c r : Nat)
    (s : Scan) (hfn : inp.BUTTON_FN_STATE c r ≠ 0) (hpos : km.search_hid_key c r > 0)
    (hmod : km.search_hid_key c r ≥ km.KEY_LEFTCTRL ∧ km.search_hid_key c r ≤ km.KEY_RIGHTMETA)
    (hlen : s.hid.length = 8) :
    ((key_step km l inp c r s).hid.getD 0 0).testBit ((km.search_hid_key c r).toNat &&& 7)
        = true ∧
      (key_step km l inp c r s).hid.drop 2 = s.hid.drop 2 ∧
      (key_step km l inp c r s).nr_hidkey = s.nr_hidkey := by
  have hb : (km.search_hid_key c r).toNat &&& 7 < 8 :=
    lt_of_le_of_lt Nat.and_le_right (by decide)
  rw [key_step_modifier km l inp c r s hpos hfn hmod]
  refine ⟨?_, drop_two_set_zero _ _, rfl⟩
  obtain ⟨m0, t, ht⟩ : ∃ m0 t, s.hid = m0 :: t := by
    cases hs : s.hid with
    | nil => rw [hs] at hlen; simp at hlen
    | cons a t => exact ⟨a, t, rfl⟩
  show ((List.set _ 0 _).getD 0 0).testBit _ = true
  rw [ht]
  simp only [List.set_cons_zero, List.getD_cons_zero]
  rw [show (256 : Nat) = 2 ^ 8 from rfl, Nat.testBit_mod_two_pow, Nat.testBit_or,
    Nat.one_shiftLeft, Nat.testBit_two_pow]
  simp [hb]

/-- C16 (modifier bitmask). In every state the task reaches from its start, over
any history of scan cycles and for every keymap, a non-phantom scan cycle in
which a bound modifier key (logical code in `KEY_LEFTCTRL..KEY_RIGHTMETA`) reads
active while the Fn button is not held has bit `code & 0x07` of byte 0 set in the
decoded report, whatever other keys are active and whether or not the Fn button
is held for them; every keyboard report the cycle transmits carries that bit.
The handling of the modifier key itself sets the bit whatever the Fn-lock value,
and leaves the six key slots and the slot count as they were: a modifier key
never occupies a slot. -/
theorem modifier_bitmask (km : Keymap) (history : List ScanInput) (inp : ScanInput) (c r : Nat)
    (hc : c < COL_NUM) (hr : r < ROW_NUM)
    (hact : inp.row_level c r = 0) (hfn : inp.BUTTON_FN_STATE c r ≠ 0)
    (hpos : km.search_hid_key c r > 0)
    (hmod : km.search_hid_key c r ≥ km.KEY_LEFTCTRL ∧ km.search_hid_key c r ≤ km.KEY_RIGHTMETA)
    (hph : (scan km (run_cycles km (kb_init km) history).1.is_fn_locked inp).has_phantom_key
      = false) :
    ((decode km (run_cycles km (kb_init km) history).1 inp).hid.getD 0 0).testBit
        ((km.search_hid_key c r).toNat &&& 7) = true ∧
    (∀ rep ∈ keyboard_reports
        (keyboard_cycle km (run_cycles km (kb_init km) history).1 inp).2,
      (rep.getD 0 0).testBit ((km.search_hid_key c r).toNat &&& 7) = true) ∧
    (∀ (is_fn_locked : Bool) (s : Scan), s.hid.length = 8 →
      ((key_step km is_fn_locked inp c r s).hid.getD 0 0).testBit
          ((km.search_hid_key c r).toNat &&& 7) = true ∧
        (key_step km is_fn_locked inp c r s).hid.drop 2 = s.hid.drop 2 ∧
        (key_step km is_fn_locked inp c r s).nr_hidkey = s.nr_hidkey) := by
  have hl : (run_cycles km (kb_init km) history).1.is_fn_locked = false :=
    run_cycles_is_fn_locked km history (kb_init km)
  have hbit : ((decode km (run_cycles km (kb_init km) history).1 inp).hid.getD 0 0).testBit
      ((km.search_hid_key c r).toNat &&& 7) = true := by
    rw [decode_of_no_phantom km _ inp hph]
    apply scan_modifier_bit km _ inp c r hc hr hact hfn hpos hmod
    intro c2 r2 _ hhit
    rw [hl] at hhit
    exact absurd hhit.1 (by decide)
  refine ⟨hbit, ?_, ?_⟩
  · intro rep hrep
    by_cases hconn : inp.is_usb_connected = true
    · rw [(keyboard_cycle_reports km _ inp hconn).1] at hrep
      split at hrep
      · rw [List.mem_singleton] at hrep
        rw [hrep]
        exact hbit
      · simp at hrep
    · have hc2 : inp.is_usb_connected = false := by simpa using hconn
      have h0 : keyboard_cycle km (run_cycles km (kb_init km) history).1 inp
          = ((run_cycles km (kb_init km) history).1, []) := by
        unfold keyboard_cycle
        simp [hc2]
      rw [h0] at hrep
      simp [keyboard_reports] at hrep
  · intro l s hlen
    exact key_step_modifier_sets_bit km l inp c r s hfn hpos hmod hlen

set_option maxRecDepth 100000 in
/-- After a cycle with `a` held, left ctrl at `(1, 14)` and left shift at `(2, 12)`
join it: the cycle's one keyboard report has bits 0 and 1 of byte 0 set and `a` in
the first slot. -/
theorem modifier_bitmask_witness :
    keyboard_reports (keyboard_cycle sample_keymap
        (run_cycles sample_keymap (kb_init sample_keymap) [scan_of [(4, 10)]]).1
        (scan_of [(1, 14), (2, 12), (4, 10)])).2 = [[3, 0, 4, 0, 0, 0, 0, 0]] ∧
    ((decode sample_keymap
        (run_cycles sample_keymap (kb_init sample_keymap) [scan_of [(4, 10)]]).1
        (scan_of [(1, 14), (2, 12), (4, 10)])).hid.getD 0 0).testBit
      ((sample_keymap.search_hid_key 1 14).toNat &&& 7) = true :=
  ⟨by decide,
   (modifier_bitmask sample_keymap [scan_of [(4, 10)]] (scan_of [(1, 14), (2, 12), (4, 10)]) 1 14
    (by decide) (by decide) (by decide) (by decide) (by decide) (by decide) (by decide)).1⟩

/-! ### C17 -/

theorem row_fold_bits (km : Keymap) (l : Bool) (inp : ScanInput) (c : Nat) (rows : List Nat)
    (i : Nat) : ∀ acc : Scan × Nat,
    ((rows.foldl (scan_row km l inp c) acc).2.testBit i = true ↔
      acc.2.testBit i = true ∨ (i ∈ rows ∧ inp.row_level c i = 0)) := by
  induction rows with
  | nil => intro acc; simp
  | cons r rs ih =>
    intro acc
    rw [List.foldl_cons, ih]
    unfold scan_row
    by_cases hr : inp.row_level c r = 0
    · rw [if_pos hr]
      simp only [Nat.testBit_or, Bool.or_eq_true, Nat.one_shiftLeft, Nat.testBit_two_pow,
        decide_eq_true_eq, List.mem_cons]
      constructor
      · rintro ((h | h) | h)
        · exact Or.inl h
        · exact Or.inr ⟨Or.inl h.symm, h ▸ hr⟩
        · exact Or.inr ⟨Or.inr h.1, h.2⟩
      · rintro (h | ⟨h | h, h2⟩)
        · exact Or.inl (Or.inl h)
        · exact Or.inl (Or.inr h.symm)
        · exact Or.inr ⟨h, h2⟩
    · rw [if_neg hr]
      simp only [List.mem_cons]
      constructor
      · rintro (h | h)
        · exact Or.inl h
        · exact Or.inr ⟨Or.inr h.1, h.2⟩
      · rintro (h | ⟨h | h, h2⟩)
        · exact Or.inl h
        · exact absurd (h ▸ h2) hr
        · exact Or.inr ⟨h, h2⟩

/-- The bits of `rows_cur_col` after the row loop of column `c`. -/
theorem rows_cur_col_bit (km : Keymap) (l : Bool) (inp : ScanInput) (c : Nat) (s : Scan)
    (i : Nat) :
    (((List.range ROW_NUM).foldl (scan_row km l inp c) (s, 0)).2.testBit i = true ↔
      i < ROW_NUM ∧ inp.row_level c i = 0) := by
  rw [row_fold_bits]
  simp [List.mem_range]

theorem more_than_one_bit_iff (x : Nat) :
    more_than_one_bit x = true ↔
      ∃ a b, a < b ∧ b < 32 ∧ x.testBit a = true ∧ x.testBit b = true := by
  constructor
  · exact two_bits_of_more_than_one_bit x
  · rintro ⟨a, b, hab, hb, ha1, hb1⟩
    exact more_than_one_bit_of_two x a b hab hb ha1 hb1

theorem scan_col_rows_connected_bit (km : Keymap) (l : Bool) (inp : ScanInput) (s : Scan)
    (c i : Nat) :
    ((scan_col km l inp s c).rows_connected.testBit i = true ↔
      s.rows_connected.testBit i = true ∨ (i < ROW_NUM ∧ inp.row_level c i = 0)) := by
  rw [scan_col_rows_connected, Nat.testBit_or, Bool.or_eq_true, rows_cur_col_bit]

theorem scan_col_has_phantom_key_iff (km : Keymap) (l : Bool) (inp : ScanInput) (s : Scan)
    (c : Nat) :
    ((scan_col km l inp s c).has_phantom_key = true ↔
      s.has_phantom_key = true ∨
        ∃ b, b < ROW_NUM ∧ ∃ a, a < b ∧ inp.row_level c a = 0 ∧ inp.row_level c b = 0 ∧
          s.rows_connected.testBit a = true ∧ s.rows_connected.testBit b = true) := by
  rw [scan_col_has_phantom_key]
  have key : more_than_one_bit
      (((List.range ROW_NUM).foldl (scan_row km l inp c) (s, 0)).2 &&& s.rows_connected) = true ↔
      ∃ b, b < ROW_NUM ∧ ∃ a, a < b ∧ inp.row_level c a = 0 ∧ inp.row_level c b = 0 ∧
        s.rows_connected.testBit a = true ∧ s.rows_connected.testBit b = true := by
    rw [more_than_one_bit_iff]
    constructor
    · rintro ⟨a, b, hab, _, ha, hb⟩
      rw [Nat.testBit_and, Bool.and_eq_true, rows_cur_col_bit] at ha hb
      exact ⟨b, hb.1.1, a, hab, ha.1.2, hb.1.2, ha.2, hb.2⟩
    · rintro ⟨b, hb16, a, hab, hca, hcb, hsa, hsb⟩
      refine ⟨a, b, hab, lt_trans hb16 (by decide), ?_, ?_⟩
      · rw [Nat.testBit_and, Bool.and_eq_true, rows_cur_col_bit]
        exact ⟨⟨lt_trans hab hb16, hca⟩, hsa⟩
      · rw [Nat.testBit_and, Bool.and_eq_true, rows_cur_col_bit]
        exact ⟨⟨hb16, hcb⟩, hsb⟩
  by_cases hm : more_than_one_bit
      (((List.range ROW_NUM).foldl (scan_row km l inp c) (s, 0)).2 &&& s.rows_connected) = true
  · rw [if_pos hm]
    exact ⟨fun _ => Or.inr (key.mp hm), fun _ => rfl⟩
  · rw [if_neg hm]
    exact ⟨fun h => Or.inl h, fun h => h.elim id (fun h2 => absurd (key.mpr h2) hm)⟩

theorem phantom_from_succ (km : Keymap) (l : Bool) (inp : ScanInput) (s : Scan) (lo n : Nat) :
    phantom_from inp s.rows_connected lo (n + 1) ↔
      (∃ b, b < ROW_NUM ∧ ∃ a, a < b ∧ inp.row_level lo a = 0 ∧ inp.row_level lo b = 0 ∧
          s.rows_connected.testBit a = true ∧ s.rows_connected.testBit b = true) ∨
        phantom_from inp (scan_col km l inp s lo).rows_connected (lo + 1) n := by
  have up : ∀ c i, lo < c → i < ROW_NUM → connected_before inp s.rows_connected lo c i →
      connected_before inp (scan_col km l inp s lo).rows_connected (lo + 1) c i := by
    intro c i hc hi h
    rcases h with h | ⟨c1, h1, h2, h3⟩
    · exact Or.inl ((scan_col_rows_connected_bit km l inp s lo i).mpr (Or.inl h))
    · rcases Nat.eq_or_lt_of_le h1 with he | hlt
      · subst he
        exact Or.inl ((scan_col_rows_connected_bit km l inp s lo i).mpr (Or.inr ⟨hi, h3⟩))
      · exact Or.inr ⟨c1, hlt, h2, h3⟩
  have down : ∀ c i, lo < c →
      connected_before inp (scan_col km l inp s lo).rows_connected (lo + 1) c i →
      connected_before inp s.rows_connected lo c i := by
    intro c i hc h
    rcases h with h | ⟨c1, h1, h2, h3⟩
    · rcases (scan_col_rows_connected_bit km l inp s lo i).mp h with h4 | h4
      · exact Or.inl h4
      · exact Or.inr ⟨lo, le_refl _, hc, h4.2⟩
    · exact Or.inr ⟨c1, by omega, h2, h3⟩
  constructor
  · rintro ⟨c, hlo, hhi, b, hb, a, hab, hca, hcb, hka, hkb⟩
    rcases Nat.eq_or_lt_of_le hlo with he | hlt
    · subst he
      left
      have base : ∀ i, connected_before inp s.rows_connected lo lo i →
          s.rows_connected.testBit i = true := by
        intro i h
        rcases h with h | ⟨c1, h1, h2, _⟩
        · exact h
        · omega
      exact ⟨b, hb, a, hab, hca, hcb, base a hka, base b hkb⟩
    · right
      exact ⟨c, hlt, by omega, b, hb, a, hab, hca, hcb,
        up c a hlt (lt_trans hab hb) hka, up c b hlt hb hkb⟩
  · rintro (⟨b, hb, a, hab, hca, hcb, hsa, hsb⟩ | ⟨c, hlo, hhi, b, hb, a, hab, hca, hcb, hka, hkb⟩)
    · exact ⟨lo, le_refl _, by omega, b, hb, a, hab, hca, hcb, Or.inl hsa, Or.inl hsb⟩
    · exact ⟨c, by omega, by omega, b, hb, a, hab, hca, hcb,
        down c a (by omega) hka, down c b (by omega) hkb⟩

theorem col_fold_phantom_iff (km : Keymap) (l : Bool) (inp : ScanInput) :
    ∀ (n lo : Nat) (s : Scan),
      (((List.range' lo n).foldl (scan_col km l inp) s).has_phantom_key = true ↔
        s.has_phantom_key = true ∨ phantom_from inp s.rows_connected lo n) := by
  intro n
  induction n with
  | zero =>
    intro lo s
    simp only [List.range'_zero, List.foldl_nil]
    constructor
    · exact fun h => Or.inl h
    · rintro (h | ⟨c, h1, h2, _⟩)
      · exact h
      · omega
  | succ n ih =>
    intro lo s
    rw [List.range'_succ, List.foldl_cons, ih, scan_col_has_phantom_key_iff,
      phantom_from_succ km l inp s lo n, or_assoc]

/-- C17 (phantom detection equals its definition). For every matrix state,
`has_phantom_key` is true at the end of the scan if and only if some column `c`
has two distinct active rows that both read active in one of the columns
`0 .. c-1`, that is, its active-row set shares at least two rows with the union of
the active-row sets of the earlier columns. The test behind it, `x & (x - 1)` on
a 32-bit unsigned `x`, is 0 exactly when `x` has fewer than two 1 bits (any two
set bits of `x` coincide). -/
theorem phantom_detection (km : Keymap) (is_fn_locked : Bool) (inp : ScanInput) :
    ((scan km is_fn_locked inp).has_phantom_key = true ↔ phantom_by_definition inp) ∧
    (∀ x : Nat, x < 4294967296 →
      (x &&& ((x + 4294967295) % 4294967296) = 0 ↔
        ∀ a b, x.testBit a = true → x.testBit b = true → a = b)) := by
  constructor
  · unfold scan
    rw [List.range_eq_range', col_fold_phantom_iff]
    constructor
    · rintro (h | ⟨c, _, hhi, b, hb, a, hab, hca, hcb, hka, hkb⟩)
      · exact absurd h (by simp [scan_init])
      · have base : ∀ i, connected_before inp (scan_init km).rows_connected 0 c i →
            ∃ c1, c1 < c ∧ inp.row_level c1 i = 0 := by
          intro i h
          rcases h with h | ⟨c1, _, h2, h3⟩
          · simp [scan_init] at h
          · exact ⟨c1, h2, h3⟩
        exact ⟨c, by omega, b, hb, a, hab, hca, hcb, base a hka, base b hkb⟩
    · rintro ⟨c, hc, b, hb, a, hab, hca, hcb, ⟨c1, h1, h1a⟩, ⟨c2, h2, h2b⟩⟩
      exact Or.inr ⟨c, Nat.zero_le _, by omega, b, hb, a, hab, hca, hcb,
        Or.inr ⟨c1, Nat.zero_le _, h1, h1a⟩, Or.inr ⟨c2, Nat.zero_le _, h2, h2b⟩⟩
  · intro x hx
    have hiff := more_than_one_bit_iff x
    unfold more_than_one_bit at hiff
    simp only [bne_iff_ne, ne_eq] at hiff
    constructor
    · intro h0 a b ha hb
      by_contra hne
      apply hiff.mpr _ h0
      have hlt : ∀ i, x.testBit i = true → i < 32 := by
        intro i hi
        by_contra hge
        have h32 : 2 ^ 32 ≤ 2 ^ i := Nat.pow_le_pow_right (by norm_num) (by omega)
        have hxi : x < 2 ^ i := lt_of_lt_of_le hx (by simpa using h32)
        rw [Nat.testBit_lt_two_pow hxi] at hi
        exact absurd hi (by simp)
      rcases Nat.lt_or_gt_of_ne hne with h | h
      · exact ⟨a, b, h, hlt b hb, ha, hb⟩
      · exact ⟨b, a, h, hlt a ha, hb, ha⟩
    · intro hall
      by_contra hne
      obtain ⟨a, b, hab, _, ha, hb⟩ := hiff.mp hne
      have := hall a b ha hb
      omega

set_option maxRecDepth 100000 in
/-- The equivalence on two concrete matrices, and the bit test on 6 (two bits): a
full rectangle raises the flag and meets the definition; with one corner
released neither holds. -/
theorem phantom_detection_witness :
    ((scan sample_keymap false (scan_of [(0, 0), (0, 4), (4, 0), (4, 4)])).has_phantom_key = true ∧
      phantom_by_definition (scan_of [(0, 0), (0, 4), (4, 0), (4, 4)])) ∧
    ((scan sample_keymap false (scan_of [(0, 0), (0, 4), (4, 0)])).has_phantom_key = false ∧
      ¬ phantom_by_definition (scan_of [(0, 0), (0, 4), (4, 0)])) ∧
    6 &&& ((6 + 4294967295) % 4294967296) ≠ 0 :=
  ⟨⟨by decide,
    ((phantom_detection sample_keymap false (scan_of [(0, 0), (0, 4), (4, 0), (4, 4)])).1).mp
      (by decide)⟩,
   ⟨by decide,
    fun h => absurd
      (((phantom_detection sample_keymap false (scan_of [(0, 0), (0, 4), (4, 0)])).1).mpr h)
      (by decide)⟩,
   fun h0 => absurd
     (((phantom_detection sample_keymap false (scan_of [])).2 6 (by decide)).mp h0 1 2
       (by decide) (by decide))
     (by decide)⟩

end Keyboard

/-! ## Properties of trackpoint.c -/

namespace Trackpoint

/-! ### The receiver and the reassembly loop -/

theorem uart_read_bytes_pending (u : Uart) (n : Nat) :
    (uart_read_bytes u n).2.pending + (uart_read_bytes u n).1.length = u.pending := by
  obtain ⟨rx, wire⟩ := u
  cases wire with
  | nil =>
    simp only [uart_read_bytes, Uart.pending, List.headD_nil, List.append_nil, List.tail_nil,
      List.map_nil, List.sum_nil, List.length_take, List.length_drop]
    omega
  | cons w ws =>
    simp only [uart_read_bytes, Uart.pending, List.headD_cons, List.tail_cons, List.map_cons,
      List.sum_cons, List.length_take, List.length_drop, List.length_append]
    omega

theorem read_packet_pending (u : Uart) :
    (read_packet u).2.pending + (read_packet u).1.length = u.pending := by
  unfold read_packet
  dsimp only
  split
  · have h1 := uart_read_bytes_pending u 3
    have h2 := uart_read_bytes_pending (uart_read_bytes u 3).2 (3 - (uart_read_bytes u 3).1.length)
    simp only [List.length_append]
    omega
  · exact uart_read_bytes_pending u 3

/-- The loop ends: with more passes allowed than bytes pending it returns. -/
theorem parse_loop_returns : ∀ (fuel : Nat) (u : Uart) (a : Accum), u.pending < fuel →
    ∃ r, parse_loop fuel u a = some r := by
  intro fuel
  induction fuel with
  | zero => intro u a h; omega
  | succ fuel ih =>
    intro u a h
    unfold parse_loop
    dsimp only
    split
    · split
      · rename_i h3
        apply ih
        have := read_packet_pending u
        omega
      · exact ⟨_, rfl⟩
    · exact ⟨_, rfl⟩

/-- A call of `poll_trackpoint` returns. -/
theorem poll_trackpoint_returns (env : PollEnv) (st : TpState) :
    ∃ r, poll_trackpoint env st = some r := by
  unfold poll_trackpoint
  split
  · exact ⟨_, rfl⟩
  · split
    · exact ⟨_, rfl⟩
    · split
      · obtain ⟨⟨u, a⟩, h⟩ := parse_loop_returns (st.uart.pending + 1) st.uart Accum.zero
          (Nat.lt_succ_self _)
        rw [h]
        exact ⟨_, rfl⟩
      · exact ⟨_, rfl⟩

/-- A call with the receiver open and data ready, in terms of the result of the
loop. -/
theorem poll_trackpoint_ready (env : PollEnv) (st : TpState) (u : Uart) (a : Accum)
    (hfd : ¬ st.uart1_fd < 0) (hs : env.select_result > 0)
    (hp : parse_loop (st.uart.pending + 1) st.uart Accum.zero = some (u, a)) :
    poll_trackpoint env st =
      some ({ st with uart := u,
                      is_midkey := (emit env.is_usb_connected st.is_midkey st.is_pan a).1,
                      is_pan := (emit env.is_usb_connected st.is_midkey st.is_pan a).2.1 },
            (emit env.is_usb_connected st.is_midkey st.is_pan a).2.2) := by
  unfold poll_trackpoint
  rw [if_neg hfd, if_neg (by omega), if_pos (by omega), hp]

/-! ### Bits of the button byte -/

theorem mask_low (b m : Nat) (h : 255 &&& (7 &&& m) = m) : (b % 256 &&& 7) &&& m = b &&& m := by
  have e : b % 256 = b &&& 255 := (Nat.and_pow_two_sub_one_eq_mod b 8).symm
  rw [e, Nat.and_assoc, Nat.and_assoc, h]

/-! ### emit, branch by branch -/

theorem emit_middle_still (conn is_midkey is_pan : Bool) (a : Accum) (hr : a.is_recv = true)
    (hm : (a.buttons &&& 7) &&& 4 ≠ 0) (hx : a.dx = 0) (hy : a.dy = 0) :
    emit conn is_midkey is_pan a =
      (true, is_pan,
        if conn then [TpEvent.mouse_report ((a.buttons &&& 7) &&& 3) 0 0 0 0] else []) := by
  unfold emit
  simp [hr, hm, hx, hy]

theorem emit_middle_pan (conn is_midkey is_pan : Bool) (a : Accum) (hr : a.is_recv = true)
    (hm : (a.buttons &&& 7) &&& 4 ≠ 0) (hxy : a.dx ≠ 0 ∨ a.dy ≠ 0) :
    emit conn is_midkey is_pan a =
      (true, true,
        if conn then
          [TpEvent.mouse_report ((a.buttons &&& 7) &&& 3) 0 0 (-Int.sign a.dy) (Int.sign a.dx)]
        else []) := by
  have sx : (if a.dx > 0 then (1 : Int) else if a.dx < 0 then -1 else 0) = Int.sign a.dx := by
    rcases lt_trichotomy a.dx 0 with h | h | h
    · rw [if_neg (by omega), if_pos h, Int.sign_eq_neg_one_of_neg h]
    · rw [h]; rfl
    · rw [if_pos h, Int.sign_eq_one_of_pos h]
  have sy : (if a.dy < 0 then (1 : Int) else if a.dy > 0 then -1 else 0) = -Int.sign a.dy := by
    rcases lt_trichotomy a.dy 0 with h | h | h
    · rw [if_pos h, Int.sign_eq_neg_one_of_neg h]; rfl
    · rw [h]; rfl
    · rw [if_neg (by omega), if_pos h, Int.sign_eq_one_of_pos h]
  unfold emit
  simp only [hr, if_true, hm, ne_eq, not_false_eq_true, sx, sy]
  rw [if_pos hxy]

theorem emit_no_middle (conn is_midkey is_pan : Bool) (a : Accum) (hr : a.is_recv = true)
    (hm : (a.buttons &&& 7) &&& 4 = 0) :
    emit conn is_midkey is_pan a =
      (false, false,
        (if (is_midkey && !is_pan) = true then
          if conn then
            [TpEvent.mouse_report 4 0 0 0 0, TpEvent.delay 20,
             TpEvent.mouse_report 0 0 0 0 0, TpEvent.delay 20]
          else []
        else []) ++
        (if conn then
          [TpEvent.mouse_report ((a.buttons &&& 7) &&& 3) (scale a.dx) (scale a.dy) 0 0]
         else [])) := by
  unfold emit
  simp [hr, hm]

/-- A call that finds exactly one packet in the queue, nothing more arriving. -/
theorem poll_one_packet (env : PollEnv) (st : TpState) (b0 b1 b2 : Nat)
    (hfd : ¬ st.uart1_fd < 0) (hs : env.select_result > 0)
    (hq : st.uart = { rx := [b0, b1, b2], wire := [] }) :
    poll_trackpoint env st =
      some ({ st with
              uart := { rx := [], wire := [] },
              is_midkey := (emit env.is_usb_connected st.is_midkey st.is_pan
                (accumulate Accum.zero [b0, b1, b2])).1,
              is_pan := (emit env.is_usb_connected st.is_midkey st.is_pan
                (accumulate Accum.zero [b0, b1, b2])).2.1 },
            (emit env.is_usb_connected st.is_midkey st.is_pan
                (accumulate Accum.zero [b0, b1, b2])).2.2) := by
  apply poll_trackpoint_ready env st _ _ hfd hs
  rw [hq]
  rfl

theorem accumulate_still (b0 : Nat) :
    accumulate Accum.zero [b0, 0, 0] =
      { buttons := b0 % 256, dx := 0, dy := 0, is_recv := true } := by
  simp [accumulate, Accum.zero, toInt8]

/-! ### C4 -/

/-- C4, the claim as stated fails. From a state with the pan latch clear, a
middle-button press packet and then a release packet, both without motion, make
four mouse reports, not two: the regular all-zero report of the press cycle, the
synthesized press and release, and the regular report of the release cycle. And
right after initialisation, where `is_pan` still has its initial value, the same
two packets make two all-zero reports and no press-only report at all. -/
theorem click_emulation_counterexample :
    ((poll_run env_ready (tp_idle { rx := [], wire := [] }) [[4, 0, 0], [0, 0, 0]]).map
        (fun r => mouse_reports r.2)
      = some [TpEvent.mouse_report 0 0 0 0 0, TpEvent.mouse_report 4 0 0 0 0,
              TpEvent.mouse_report 0 0 0 0 0, TpEvent.mouse_report 0 0 0 0 0] ∧
     (poll_run env_ready (tp_idle { rx := [], wire := [] }) [[4, 0, 0], [0, 0, 0]]).map
        (fun r => mouse_reports r.2)
      ≠ some [TpEvent.mouse_report 4 0 0 0 0, TpEvent.mouse_report 0 0 0 0 0]) ∧
    (poll_run env_ready (tp_after_init { rx := [], wire := [] }) [[4, 0, 0], [0, 0, 0]]).map
        (fun r => mouse_reports r.2)
      = some [TpEvent.mouse_report 0 0 0 0 0, TpEvent.mouse_report 0 0 0 0 0] := by
  decide

/-- C4, amended. With the host connected, the receiver open and idle, and the pan
latch `is_pan` clear when the press arrives, a middle-button press packet (bit 2
set, no motion) polled in one cycle and a release packet (bit 2 clear, no
motion) polled in the next produce: in the press cycle the regular report with
the middle bit masked off and all deltas 0; in the release cycle the press-only
report (buttons 0b100, all deltas 0), a 20-tick delay, the release-only report
(all 0), a 20-tick delay, and then the regular report of the cycle. -/
theorem click_emulation (env : PollEnv) (st : TpState) (b0 c0 : Nat)
    (hfd : ¬ st.uart1_fd < 0) (hconn : env.is_usb_connected = true)
    (hs : env.select_result > 0) (hpan : st.is_pan = false)
    (hq : st.uart = { rx := [], wire := [] })
    (hpress : b0 &&& 4 ≠ 0) (hrelease : c0 &&& 4 = 0) :
    poll_run env st [[b0, 0, 0], [c0, 0, 0]] =
      some ({ st with is_midkey := false, is_pan := false },
        [TpEvent.mouse_report (b0 &&& 3) 0 0 0 0,
         TpEvent.mouse_report 4 0 0 0 0, TpEvent.delay 20,
         TpEvent.mouse_report 0 0 0 0 0, TpEvent.delay 20,
         TpEvent.mouse_report (c0 &&& 3) 0 0 0 0]) := by
  have hb4 : (b0 % 256 &&& 7) &&& 4 = b0 &&& 4 := mask_low b0 4 (by decide)
  have hb3 : (b0 % 256 &&& 7) &&& 3 = b0 &&& 3 := mask_low b0 3 (by decide)
  have hc4 : (c0 % 256 &&& 7) &&& 4 = c0 &&& 4 := mask_low c0 4 (by decide)
  have hc3 : (c0 % 256 &&& 7) &&& 3 = c0 &&& 3 := mask_low c0 3 (by decide)
  obtain ⟨fd, m, p, u⟩ := st
  simp only at hfd hpan hq
  subst hpan hq
  have e1 : emit env.is_usb_connected m false (accumulate Accum.zero [b0, 0, 0])
      = (true, false, [TpEvent.mouse_report (b0 &&& 3) 0 0 0 0]) := by
    rw [accumulate_still, emit_middle_still _ _ _ _ rfl (by rw [hb4]; exact hpress) rfl rfl,
      hconn, hb3]
    rfl
  have e2 : emit env.is_usb_connected true false (accumulate Accum.zero [c0, 0, 0])
      = (false, false,
          [TpEvent.mouse_report 4 0 0 0 0, TpEvent.delay 20,
           TpEvent.mouse_report 0 0 0 0 0, TpEvent.delay 20,
           TpEvent.mouse_report (c0 &&& 3) 0 0 0 0]) := by
    rw [accumulate_still, emit_no_middle _ _ _ _ rfl (by rw [hc4]; exact hrelease), hconn, hc3]
    simp [scale, MOUSE_SCALE_MIN]
  have p1 := poll_one_packet env
    { uart1_fd := fd, is_midkey := m, is_pan := false, uart := { rx := [b0, 0, 0], wire := [] } }
    b0 0 0 hfd hs rfl
  have p2 := poll_one_packet env
    { uart1_fd := fd, is_midkey := true, is_pan := false,
      uart := { rx := [c0, 0, 0], wire := [] } }
    c0 0 0 hfd hs rfl
  simp only [e1] at p1
  simp only [e2] at p2
  simp only [poll_run, arrive, List.nil_append, p1, p2]
  rfl

/-- The amended click emulation on a concrete run: press packet 0x0c, release
packet 0x08. -/
theorem click_emulation_witness :
    poll_run env_ready (tp_idle { rx := [], wire := [] }) [[0x0c, 0, 0], [0x08, 0, 0]] =
      some (tp_idle { rx := [], wire := [] },
        [TpEvent.mouse_report 0 0 0 0 0,
         TpEvent.mouse_report 4 0 0 0 0, TpEvent.delay 20,
         TpEvent.mouse_report 0 0 0 0 0, TpEvent.delay 20,
         TpEvent.mouse_report 0 0 0 0 0]) :=
  click_emulation env_ready (tp_idle { rx := [], wire := [] }) 0x0c 0x08
    (by decide) rfl (by decide) rfl rfl (by decide) (by decide)

/-! ### C5 -/

/-- C5 (middle-button pan). In every poll cycle (receiver open, data ready, host
connected) the reassembly loop returns, and if the accumulated buttons have the
middle bit set and the accumulated motion `(dx, dy)` is not `(0, 0)`, the one
report transmitted has cursor deltas 0, horizontal pan `sign dx` and vertical pan
`-sign dy`, each in `{-1, 0, 1}`; no click-emulation report is emitted in that
cycle, nor in a later cycle that starts with the latches this cycle left and
receives packets with the middle bit clear (it transmits its regular report
only). A drag of `(dx, dy) = (3, 0)` gives `pan_x = 1`, `pan_y = 0`. -/
theorem middle_button_pan (env : PollEnv) (st : TpState)
    (hfd : ¬ st.uart1_fd < 0) (hconn : env.is_usb_connected = true)
    (hs : env.select_result > 0) :
    (∃ u a, parse_loop (st.uart.pending + 1) st.uart Accum.zero = some (u, a) ∧
      (a.is_recv = true → (a.buttons &&& 7) &&& 4 ≠ 0 → (a.dx ≠ 0 ∨ a.dy ≠ 0) →
        poll_trackpoint env st =
          some ({ st with uart := u, is_midkey := true, is_pan := true },
            [TpEvent.mouse_report ((a.buttons &&& 7) &&& 3) 0 0
              (-Int.sign a.dy) (Int.sign a.dx)]) ∧
        (Int.sign a.dx = -1 ∨ Int.sign a.dx = 0 ∨ Int.sign a.dx = 1) ∧
        (-Int.sign a.dy = -1 ∨ -Int.sign a.dy = 0 ∨ -Int.sign a.dy = 1))) ∧
    (∀ (env2 : PollEnv) (u2 : Uart), env2.is_usb_connected = true →
      env2.select_result > 0 →
      ∃ u3 a2, parse_loop (u2.pending + 1) u2 Accum.zero = some (u3, a2) ∧
        (a2.is_recv = true → (a2.buttons &&& 7) &&& 4 = 0 →
          poll_trackpoint env2 { st with uart := u2, is_midkey := true, is_pan := true } =
            some ({ st with uart := u3, is_midkey := false, is_pan := false },
              [TpEvent.mouse_report ((a2.buttons &&& 7) &&& 3)
                (scale a2.dx) (scale a2.dy) 0 0]))) ∧
    poll_trackpoint env_ready (tp_idle { rx := [4, 3, 0], wire := [] }) =
        some ({ uart1_fd := 3, is_midkey := true, is_pan := true, uart := { rx := [], wire := [] } },
          [TpEvent.mouse_report 0 0 0 0 1]) := by
  refine ⟨?_, ?_, by decide⟩
  · obtain ⟨⟨u, a⟩, hp⟩ := parse_loop_returns (st.uart.pending + 1) st.uart Accum.zero
      (Nat.lt_succ_self _)
    refine ⟨u, a, hp, fun hr hm hxy => ⟨?_, ?_, ?_⟩⟩
    · rw [poll_trackpoint_ready env st u a hfd hs hp, emit_middle_pan _ _ _ _ hr hm hxy, hconn]
      rfl
    · rcases lt_trichotomy a.dx 0 with h | h | h
      · exact Or.inl (Int.sign_eq_neg_one_of_neg h)
      · exact Or.inr (Or.inl (by rw [h]; rfl))
      · exact Or.inr (Or.inr (Int.sign_eq_one_of_pos h))
    · rcases lt_trichotomy a.dy 0 with h | h | h
      · exact Or.inr (Or.inr (by rw [Int.sign_eq_neg_one_of_neg h]; rfl))
      · exact Or.inr (Or.inl (by rw [h]; rfl))
      · exact Or.inl (by rw [Int.sign_eq_one_of_pos h])
  · intro env2 u2 hconn2 hs2
    obtain ⟨⟨u3, a2⟩, hp2⟩ := parse_loop_returns (u2.pending + 1) u2 Accum.zero
      (Nat.lt_succ_self _)
    refine ⟨u3, a2, hp2, fun hr2 hm2 => ?_⟩
    rw [poll_trackpoint_ready env2
      { uart1_fd := st.uart1_fd, is_midkey := true, is_pan := true, uart := u2 } u3 a2 hfd hs2 hp2,
      emit_no_middle _ _ _ _ hr2 hm2, hconn2]
    rfl

/-- A pan cycle on concrete bytes: middle button with motion `(3, -2)` as sent,
that is `dx = 3`, `dy = 2` after the sign inversion. -/
theorem middle_button_pan_witness :
    poll_trackpoint env_ready (tp_idle { rx := [4, 3, 254], wire := [] }) =
      some ({ uart1_fd := 3, is_midkey := true, is_pan := true, uart := { rx := [], wire := [] } },
        [TpEvent.mouse_report 0 0 0 (-1) 1]) := by
  obtain ⟨u, a, hp, h⟩ := (middle_button_pan env_ready
    (tp_idle { rx := [4, 3, 254], wire := [] }) (by decide) rfl (by decide)).1
  have e : (u, a) = (({ rx := [], wire := [] } : Uart),
      ({ buttons := 4, dx := 3, dy := 2, is_recv := true } : Accum)) :=
    Option.some.inj (hp.symm.trans (by decide))
  obtain ⟨rfl, rfl⟩ := Prod.mk.inj e
  exact (h rfl (by decide) (by decide)).1

/-! ### C6 -/

theorem toInt8_of_fits (x : Int) (h1 : -128 ≤ x) (h2 : x ≤ 127) : toInt8 x = x := by
  unfold toInt8
  omega

theorem scale_eq_formula (d : Int) (h1 : -128 ≤ scale_formula d) (h2 : scale_formula d ≤ 127) :
    scale d = scale_formula d := by
  unfold scale scale_formula MOUSE_SCALE_MIN at *
  by_cases hgt : d > 1
  · have habs : ¬ |d| ≤ 1 := by rw [abs_le]; omega
    rw [if_neg habs, if_pos hgt] at h1 h2
    rw [if_pos hgt, if_neg habs, if_pos hgt]
    rw [toInt8_of_fits _ (by omega) (by omega)]
    ring
  · by_cases hlt : d < -1
    · have habs : ¬ |d| ≤ 1 := by rw [abs_le]; omega
      rw [if_neg habs, if_neg hgt] at h1 h2
      rw [if_neg hgt, if_pos hlt, if_neg habs, if_neg hgt]
      rw [toInt8_of_fits _ (by omega) (by omega)]
      ring
    · have habs : |d| ≤ 1 := by rw [abs_le]; omega
      rw [if_neg hgt, if_neg hlt, if_pos habs]

/-- C6 (speed scaling, threshold 1). In every poll cycle (receiver open, data
ready, host connected) the reassembly loop returns, and outside the middle-button
branch (packets received, middle bit clear), when the scaled deltas fit a signed
8-bit integer, the regular report, the last event of the cycle, carries `dx` and
`dy` each scaled on its own by the formula of the design document: `d` when
`|d| ≤ 1`, `d + 2 * (d - 1)` when `d > 1`, `d + 2 * (d + 1)` when `d < -1`. In
particular 3 scales to 7, 1 stays 1 and -2 scales to -4. -/
theorem speed_scaling (env : PollEnv) (st : TpState)
    (hfd : ¬ st.uart1_fd < 0) (hconn : env.is_usb_connected = true)
    (hs : env.select_result > 0) :
    (∃ u a, parse_loop (st.uart.pending + 1) st.uart Accum.zero = some (u, a) ∧
      (a.is_recv = true → (a.buttons &&& 7) &&& 4 = 0 →
        -128 ≤ scale_formula a.dx ∧ scale_formula a.dx ≤ 127 →
        -128 ≤ scale_formula a.dy ∧ scale_formula a.dy ≤ 127 →
        (∃ st1 click, poll_trackpoint env st =
          some (st1, click ++ [TpEvent.mouse_report ((a.buttons &&& 7) &&& 3)
            (scale_formula a.dx) (scale_formula a.dy) 0 0])) ∧
        scale a.dx = scale_formula a.dx ∧ scale a.dy = scale_formula a.dy)) ∧
    (∀ d : Int, -128 ≤ scale_formula d → scale_formula d ≤ 127 → scale d = scale_formula d) ∧
    scale 3 = 7 ∧ scale 1 = 1 ∧ scale (-2) = -4 := by
  refine ⟨?_, scale_eq_formula, by decide, by decide, by decide⟩
  obtain ⟨⟨u, a⟩, hp⟩ := parse_loop_returns (st.uart.pending + 1) st.uart Accum.zero
    (Nat.lt_succ_self _)
  refine ⟨u, a, hp, fun hr hm hx hy => ?_⟩
  have ex := scale_eq_formula a.dx hx.1 hx.2
  have ey := scale_eq_formula a.dy hy.1 hy.2
  refine ⟨?_, ex, ey⟩
  rw [poll_trackpoint_ready env st u a hfd hs hp, emit_no_middle _ _ _ _ hr hm, hconn, ex, ey]
  exact ⟨_, _, rfl⟩

/-- The scaling on a concrete cycle: the packet with bytes `3` and `2`, that is
`dx = 3` and `dy = -2` accumulated, is reported as `(7, -4)`. -/
theorem speed_scaling_witness :
    ∃ st1 click, poll_trackpoint env_ready (tp_idle { rx := [8, 3, 2], wire := [] }) =
      some (st1, click ++ [TpEvent.mouse_report 0 7 (-4) 0 0]) := by
  obtain ⟨u, a, hp, h⟩ := (speed_scaling env_ready
    (tp_idle { rx := [8, 3, 2], wire := [] }) (by decide) rfl (by decide)).1
  have e : (u, a) = (({ rx := [], wire := [] } : Uart),
      ({ buttons := 8, dx := 3, dy := -2, is_recv := true } : Accum)) :=
    Option.some.inj (hp.symm.trans (by decide))
  obtain ⟨rfl, rfl⟩ := Prod.mk.inj e
  exact (h rfl (by decide) (by decide) (by decide)).1

/-! ### C7 -/

/-- C7, the code at the failing input: the raw delta 44 is scaled to
`44 + 2 * 43 = 130`, which the `int8_t` stores as -126, and the report carries
-126: the direction is reversed. -/
theorem scale_overflow :
    scale 44 = -126 ∧
    poll_trackpoint env_ready (tp_idle { rx := [8, 44, 0], wire := [] }) =
      some (tp_idle { rx := [], wire := [] }, [TpEvent.mouse_report 0 (-126) 0 0 0]) := by
  decide

/-! ### C10 -/

/-- After `k` complete packets, a pass that reads 1 or 2 bytes ends the loop with
the locals reset, whatever was accumulated before, and with the receiver flushed
as line 416 found it. -/
theorem parse_loop_short_read : ∀ (k fuel : Nat) (u : Uart) (a : Accum), u.pending < fuel →
    short_read_after k u = true →
    parse_loop fuel u a =
      some (uart_flush_input (uart_receive (read_packet (after_passes k u)).2), Accum.zero) := by
  intro k
  induction k with
  | zero =>
    intro fuel u a hf hk
    obtain ⟨f, rfl⟩ : ∃ f, fuel = f + 1 := ⟨fuel - 1, by omega⟩
    simp only [short_read_after, decide_eq_true_eq] at hk
    unfold parse_loop
    dsimp only
    rw [if_pos hk.1, if_neg (by omega)]
    rfl
  | succ k ih =>
    intro fuel u a hf hk
    obtain ⟨f, rfl⟩ : ∃ f, fuel = f + 1 := ⟨fuel - 1, by omega⟩
    simp only [short_read_after, Bool.and_eq_true, decide_eq_true_eq] at hk
    unfold parse_loop
    dsimp only
    rw [if_pos (by omega), if_pos hk.1]
    show _ = some (uart_flush_input
      (uart_receive (read_packet (after_passes k (read_packet u).2)).2), Accum.zero)
    apply ih f _ _ _ hk.2
    have := read_packet_pending u
    omega

/-- A pass that ends with 1 or 2 bytes has taken every byte of the queue into
`mousebuf`: the reads leave the queue empty, so what the flush finds is what
was received after the supplementary read. -/
theorem read_packet_short_rx (u : Uart)
    (h : 0 < (read_packet u).1.length ∧ (read_packet u).1.length < 3) :
    (read_packet u).2.rx = [] := by
  unfold read_packet at h ⊢
  dsimp only at h ⊢
  split
  · rename_i h1
    rw [if_pos h1] at h
    simp only [uart_read_bytes, List.length_append, List.length_take] at h h1 ⊢
    rw [List.drop_eq_nil_iff]
    simp only [List.length_append, List.length_drop]
    omega
  · rename_i h1
    rw [if_neg h1] at h
    exact absurd h h1

/-- C10 (resync on a malformed read). With the receiver a byte queue that the
receive interrupt keeps filling, whenever a pass of the reassembly loop, after its
one supplementary read, holds 1 or 2 bytes instead of 3 (after any number `k` of
complete packets decoded earlier in the same cycle), the loop stops with
`buttons`, `dx`, `dy` reset to zero and `is_recv` false. The flush then finds in
the queue the bytes `late` received since the supplementary read (the reads
themselves left none behind) and drops them: the queue is empty after the loop,
and the cycle transmits no mouse report (it emits nothing and leaves the latches
as they were). The queue of the next cycle therefore holds only bytes that
arrive after the flush: neither the partial bytes nor `late` are left to be
combined with them. -/
theorem resync_on_short_read (env : PollEnv) (st : TpState) (k : Nat)
    (hfd : ¬ st.uart1_fd < 0) (hs : env.select_result > 0)
    (hshort : short_read_after k st.uart = true) :
    ∃ late w,
      uart_receive (read_packet (after_passes k st.uart)).2 = { rx := late, wire := w } ∧
      late = (read_packet (after_passes k st.uart)).2.wire.headD [] ∧
      parse_loop (st.uart.pending + 1) st.uart Accum.zero
          = some ({ rx := [], wire := w }, { buttons := 0, dx := 0, dy := 0, is_recv := false }) ∧
      poll_trackpoint env st = some ({ st with uart := { rx := [], wire := w } }, []) ∧
      ∀ bytes, (arrive { st with uart := { rx := [], wire := w } } bytes).uart.rx = bytes := by
  have hw := parse_loop_short_read k (st.uart.pending + 1) st.uart Accum.zero
    (Nat.lt_succ_self _) hshort
  have hlast : ∀ (j : Nat) (u : Uart), short_read_after j u = true →
      (read_packet (after_passes j u)).2.rx = [] := by
    intro j
    induction j with
    | zero =>
      intro u hj
      simp only [short_read_after, decide_eq_true_eq] at hj
      exact read_packet_short_rx u hj
    | succ j ih =>
      intro u hj
      simp only [short_read_after, Bool.and_eq_true, decide_eq_true_eq] at hj
      exact ih _ hj.2
  have hrx := hlast k st.uart hshort
  refine ⟨(read_packet (after_passes k st.uart)).2.wire.headD [],
    (read_packet (after_passes k st.uart)).2.wire.tail, ?_, rfl, hw, ?_, fun bytes => rfl⟩
  · unfold uart_receive
    rw [hrx]
    rfl
  · rw [poll_trackpoint_ready env st _ _ hfd hs hw]
    rfl

/-- A complete packet with the left button and motion, then two stray bytes; the
supplementary read finds nothing, and two further bytes reach the queue before
the flush. Nothing is reported, the flush drops the two late bytes and the queue
ends empty; the packet of the next cycle is made of the next cycle's bytes
only. -/
theorem resync_on_short_read_witness :
    poll_trackpoint env_ready (tp_idle { rx := [9, 3, 0, 5, 6], wire := [[], [], [], [7, 7]] }) =
        some (tp_idle { rx := [], wire := [] }, []) ∧
    uart_receive (read_packet (after_passes 1
        { rx := [9, 3, 0, 5, 6], wire := [[], [], [], [7, 7]] })).2 =
      { rx := [7, 7], wire := [] } ∧
    poll_run env_ready (tp_idle { rx := [9, 3, 0, 5, 6], wire := [[], [], [], [7, 7]] })
        [[], [8, 1, 0]] =
      some (tp_idle { rx := [], wire := [] }, [TpEvent.mouse_report 0 1 0 0 0]) :=
  ⟨match resync_on_short_read env_ready
      (tp_idle { rx := [9, 3, 0, 5, 6], wire := [[], [], [], [7, 7]] }) 1
      (by decide) (by decide) (by decide) with
    | ⟨_, w, h1, _, _, h2, _⟩ =>
      have hw : w = [] :=
        congrArg Uart.wire (h1.symm.trans
          (show uart_receive (read_packet (after_passes 1
              (tp_idle { rx := [9, 3, 0, 5, 6], wire := [[], [], [], [7, 7]] }).uart)).2 =
            { rx := [7, 7], wire := [] } by decide))
      hw ▸ h2,
   by decide, by decide⟩

/-! ### init_trackpoint -/

theorem init_round_variant (v : Variant) (resp : Nat → Nat) (pos : Nat) :
    ∀ e ∈ (init_round v resp pos).1, e.variant = v := by
  unfold init_round
  dsimp only
  split_ifs <;> simp

theorem init_loop_variant (v : Variant) (resp : Nat → Nat) :
    ∀ (left nrtry pos : Nat), ∀ round ∈ (init_loop v resp left nrtry pos).1,
      ∀ e ∈ round, e.variant = v := by
  intro left
  induction left with
  | zero => intro nrtry pos round h; simp [init_loop] at h
  | succ left ih =>
    intro nrtry pos round h
    unfold init_loop at h
    dsimp only at h
    split at h
    · rw [List.mem_singleton] at h
      rw [h]
      exact init_round_variant v resp pos
    · rcases List.mem_cons.mp h with h | h
      · rw [h]
        exact init_round_variant v resp pos
      · exact ih _ _ round h

/-! ### C8 -/

/-- C8 (variant fallback). For every response stream, the first write of
`init_trackpoint` is the probing reset 0xFF made with `ps2_write_1`; if the read
that follows it is not 0xFA, every later write is made with `ps2_write_2`, and if
it is 0xFA, every later write is made with `ps2_write_1`. -/
theorem variant_fallback (resp : Nat → Nat) (open_fd : Int) :
    (init_trackpoint resp open_fd).writes.head? = some (Variant.ps2_write_1, 0xff) ∧
    (resp 0 ≠ 0xfa →
      ∀ w ∈ (init_trackpoint resp open_fd).writes.tail, w.1 = Variant.ps2_write_2) ∧
    (resp 0 = 0xfa →
      ∀ w ∈ (init_trackpoint resp open_fd).writes.tail, w.1 = Variant.ps2_write_1) := by
  refine ⟨rfl, ?_, ?_⟩
  · intro h w hw
    simp only [InitResult.writes, init_trackpoint, List.tail_cons, List.mem_map,
      List.mem_flatten] at hw
    obtain ⟨e, ⟨round, hr, he⟩, rfl⟩ := hw
    rw [init_loop_variant _ resp 5 0 1 round hr e he]
    simp [h]
  · intro h w hw
    simp only [InitResult.writes, init_trackpoint, List.tail_cons, List.mem_map,
      List.mem_flatten] at hw
    obtain ⟨e, ⟨round, hr, he⟩, rfl⟩ := hw
    rw [init_loop_variant _ resp 5 0 1 round hr e he]
    simp [h]

/-- The fallback on a stream whose first three answers are 0 and the rest 0xFA:
the seven writes after the probe all use `ps2_write_2`. -/
theorem variant_fallback_witness :
    (init_trackpoint (fun i => if i < 3 then 0 else 0xfa) 3).writes.tail.map (fun w => w.1)
      = List.replicate 7 Variant.ps2_write_2 ∧
    ∀ w ∈ (init_trackpoint (fun i => if i < 3 then 0 else 0xfa) 3).writes.tail,
      w.1 = Variant.ps2_write_2 :=
  ⟨by decide,
   (variant_fallback (fun i => if i < 3 then 0 else 0xfa) 3).2.1 (by decide)⟩

/-! ### C9 -/

theorem init_round_spec (v : Variant) (resp : Nat → Nat) (pos : Nat) :
    round_well_formed (init_round v resp pos).1 ∧
    ((init_round v resp pos).2 = true ↔ round_acknowledged (init_round v resp pos).1) ∧
    (init_round v resp pos).1.map (fun e => e.answer) =
      (List.range (init_round v resp pos).1.length).map (fun i => resp (pos + i)) := by
  unfold init_round round_well_formed round_acknowledged init_cmds
  dsimp only
  split_ifs with h0 h1 h2 h3 h4 <;>
    simp_all [List.range_succ, List.dropLast, List.getLast?]

theorem init_loop_spec (v : Variant) (resp : Nat → Nat) :
    ∀ (left nrtry pos : Nat),
      (init_loop v resp left nrtry pos).1.length ≤ left ∧
      (∀ round ∈ (init_loop v resp left nrtry pos).1, round_well_formed round) ∧
      (∀ round ∈ (init_loop v resp left nrtry pos).1.dropLast, ¬ round_acknowledged round) ∧
      ((init_loop v resp left nrtry pos).2 < nrtry + left ↔
        ∃ round ∈ (init_loop v resp left nrtry pos).1, round_acknowledged round) ∧
      (init_loop v resp left nrtry pos).2 ≤ nrtry + left ∧
      (init_loop v resp left nrtry pos).1.flatten.map (fun e => e.answer) =
        (List.range (init_loop v resp left nrtry pos).1.flatten.length).map
          (fun i => resp (pos + i)) := by
  intro left
  induction left with
  | zero =>
    intro nrtry pos
    simp [init_loop]
  | succ left ih =>
    intro nrtry pos
    obtain ⟨hwf, hack, hans⟩ := init_round_spec v resp pos
    obtain ⟨i1, i2, i3, i4, i5, i6⟩ :=
      ih (nrtry + 1) (pos + (init_round v resp pos).1.length)
    unfold init_loop
    dsimp only
    by_cases hs : (init_round v resp pos).2 = true
    · rw [if_pos hs]
      refine ⟨by simp, ?_, by simp, ?_, by simp, ?_⟩
      · intro round hr
        rw [List.mem_singleton] at hr
        rw [hr]
        exact hwf
      · constructor
        · intro _
          exact ⟨_, List.mem_singleton.mpr rfl, hack.mp hs⟩
        · intro _
          simp
      · simpa using hans
    · rw [if_neg hs]
      have hna : ¬ round_acknowledged (init_round v resp pos).1 := fun h => hs (hack.mpr h)
      refine ⟨by simp only [List.length_cons]; omega, ?_, ?_, ?_, by omega, ?_⟩
      · intro round hr
        rcases List.mem_cons.mp hr with h | h
        · rw [h]; exact hwf
        · exact i2 round h
      · intro round hr
        cases hrest : (init_loop v resp left (nrtry + 1)
            (pos + (init_round v resp pos).1.length)).1 with
        | nil => rw [hrest] at hr; simp at hr
        | cons x xs =>
          rw [hrest, List.dropLast_cons₂] at hr
          rcases List.mem_cons.mp hr with h | h
          · rw [h]; exact hna
          · rw [hrest] at i3
            exact i3 round h
      · constructor
        · intro h
          obtain ⟨round, hr, ha⟩ := i4.mp (by omega)
          exact ⟨round, List.mem_cons_of_mem _ hr, ha⟩
        · rintro ⟨round, hr, ha⟩
          rcases List.mem_cons.mp hr with h | h
          · rw [h] at ha; exact absurd ha hna
          · have := i4.mpr ⟨round, h, ha⟩
            omega
      · rw [List.flatten_cons, List.map_append, List.length_append, List.range_add,
          List.map_append, hans, i6, List.map_map]
        congr 1
        apply List.map_congr_left
        intro i _
        simp [Nat.add_assoc]

/-- The loop keeps going: with passes left it makes a round, and a round that
was not fully acknowledged is followed by a further round as long as passes are
left. -/
theorem init_loop_restart (v : Variant) (resp : Nat → Nat) :
    ∀ (left nrtry pos : Nat),
      (0 < left → (init_loop v resp left nrtry pos).1 ≠ []) ∧
      ∀ (i : Nat) (round : List Exchange),
        (init_loop v resp left nrtry pos).1[i]? = some round → ¬ round_acknowledged round →
        i + 1 < left → i + 1 < (init_loop v resp left nrtry pos).1.length := by
  intro left
  induction left with
  | zero =>
    intro nrtry pos
    exact ⟨fun h => absurd h (by omega), fun i round _ _ h => absurd h (by omega)⟩
  | succ left ih =>
    intro nrtry pos
    obtain ⟨_, hack, _⟩ := init_round_spec v resp pos
    obtain ⟨ih1, ih2⟩ := ih (nrtry + 1) (pos + (init_round v resp pos).1.length)
    unfold init_loop
    dsimp only
    by_cases hs : (init_round v resp pos).2 = true
    · rw [if_pos hs]
      refine ⟨fun _ => by simp, ?_⟩
      intro i round hi hna _
      cases i with
      | zero =>
        rw [List.getElem?_cons_zero] at hi
        rw [← Option.some.inj hi] at hna
        exact absurd (hack.mp hs) hna
      | succ i =>
        rw [List.getElem?_cons_succ] at hi
        simp at hi
    · rw [if_neg hs]
      refine ⟨fun _ => by simp, ?_⟩
      intro i round hi hna hlt
      cases i with
      | zero =>
        have hne := ih1 (by omega)
        have hpos := List.length_pos.mpr hne
        simp only [List.length_cons]
        omega
      | succ i =>
        rw [List.getElem?_cons_succ] at hi
        have := ih2 i round hi hna (by omega)
        simp only [List.length_cons]
        omega

/-- C9 (initialization retry). For every stream of response bytes,
`init_trackpoint` makes at least one and at most 5 rounds; every round starts
from the first 0xFF and sends 0xFF, 0xFF, 0xF3, 0x50, 0xF4 in this order, a
command being sent only after every earlier command of the round was answered
with 0xFA, and the round ends at its first answer other than 0xFA (the answers
being the bytes of the stream in order after the probe's). A round that was not
fully acknowledged and is not the fifth is followed by another round, and no
round follows a fully acknowledged one. The UART is installed if and only if
some round has all five answers equal to 0xFA, and then `uart1_fd` is what
`open` returned; otherwise all 5 rounds were made, none was fully acknowledged,
and `uart1_fd` is still -1 on return. -/
theorem init_retry (resp : Nat → Nat) (open_fd : Int) :
    (init_trackpoint resp open_fd).rounds ≠ [] ∧
    (init_trackpoint resp open_fd).rounds.length ≤ 5 ∧
    (∀ round ∈ (init_trackpoint resp open_fd).rounds, round_well_formed round) ∧
    (∀ (i : Nat) (round : List Exchange),
      (init_trackpoint resp open_fd).rounds[i]? = some round → ¬ round_acknowledged round →
      i + 1 < 5 → i + 1 < (init_trackpoint resp open_fd).rounds.length) ∧
    (∀ round ∈ (init_trackpoint resp open_fd).rounds.dropLast, ¬ round_acknowledged round) ∧
    (init_trackpoint resp open_fd).rounds.flatten.map (fun e => e.answer) =
      (List.range (init_trackpoint resp open_fd).rounds.flatten.length).map
        (fun i => resp (1 + i)) ∧
    ((init_trackpoint resp open_fd).uart_installed = true ↔
      ∃ round ∈ (init_trackpoint resp open_fd).rounds, round_acknowledged round) ∧
    ((init_trackpoint resp open_fd).uart_installed = true →
      (init_trackpoint resp open_fd).uart1_fd = open_fd) ∧
    ((init_trackpoint resp open_fd).uart_installed = false →
      (init_trackpoint resp open_fd).rounds.length = 5 ∧
      (∀ round ∈ (init_trackpoint resp open_fd).rounds, ¬ round_acknowledged round) ∧
      (init_trackpoint resp open_fd).uart1_fd = -1) := by
  obtain ⟨h1, h2, h3, h4, _, h6⟩ := init_loop_spec
    (if resp 0 ≠ 0xfa then Variant.ps2_write_2 else Variant.ps2_write_1) resp 5 0 1
  obtain ⟨r1, r2⟩ := init_loop_restart
    (if resp 0 ≠ 0xfa then Variant.ps2_write_2 else Variant.ps2_write_1) resp 5 0 1
  have hinst : (init_trackpoint resp open_fd).uart_installed = true ↔
      ∃ round ∈ (init_trackpoint resp open_fd).rounds, round_acknowledged round := by
    simp only [init_trackpoint, decide_eq_true_eq]
    simpa using h4
  refine ⟨r1 (by omega), h1, h2, r2, h3, h6, hinst, ?_, ?_⟩
  · simp only [init_trackpoint, decide_eq_true_eq]
    intro h
    rw [if_pos h]
  · intro hf
    have hnone : ∀ round ∈ (init_trackpoint resp open_fd).rounds, ¬ round_acknowledged round := by
      intro round hr ha
      have := hinst.mpr ⟨round, hr, ha⟩
      rw [hf] at this
      exact absurd this (by decide)
    have hlen : ∀ n, n ≤ 5 → n ≤ (init_trackpoint resp open_fd).rounds.length := by
      intro n
      induction n with
      | zero => intro _; omega
      | succ n ih =>
        intro hn
        cases n with
        | zero => exact List.length_pos.mpr (r1 (by omega))
        | succ m =>
          have hm : m < (init_trackpoint resp open_fd).rounds.length := by
            have := ih (by omega)
            omega
          exact r2 m _ (List.getElem?_eq_getElem hm)
            (hnone _ (List.getElem_mem hm)) (by omega)
    refine ⟨Nat.le_antisymm h1 (hlen 5 (Nat.le_refl 5)), hnone, ?_⟩
    simp only [init_trackpoint, decide_eq_false_iff_not] at hf ⊢
    rw [if_neg hf]

/-- Two runs. A peripheral whose third answer of the first round is wrong: the
round is abandoned after 0xF3, a second round starts from 0xFF, all five of its
commands are acknowledged and the UART is handed over. A peripheral that never
acknowledges: five rounds of one exchange each, and the bus stays offline. -/
theorem init_retry_witness :
    (init_trackpoint (fun i => if i = 3 then 0 else 0xfa) 3).rounds.map
        (fun round => round.map (fun e => e.cmd))
      = [[0xff, 0xff, 0xf3], [0xff, 0xff, 0xf3, 0x50, 0xf4]] ∧
    1 < (init_trackpoint (fun i => if i = 3 then 0 else 0xfa) 3).rounds.length ∧
    (init_trackpoint (fun i => if i = 3 then 0 else 0xfa) 3).uart1_fd = 3 ∧
    (init_trackpoint (fun _ => 0) 3).rounds.map (fun round => round.map (fun e => e.cmd))
      = [[0xff], [0xff], [0xff], [0xff], [0xff]] ∧
    (init_trackpoint (fun _ => 0) 3).rounds.length = 5 ∧
    (init_trackpoint (fun _ => 0) 3).uart1_fd = -1 :=
  ⟨by decide,
   (init_retry (fun i => if i = 3 then 0 else 0xfa) 3).2.2.2.1 0
     [{ variant := Variant.ps2_write_1, cmd := 0xff, answer := 0xfa },
      { variant := Variant.ps2_write_1, cmd := 0xff, answer := 0xfa },
      { variant := Variant.ps2_write_1, cmd := 0xf3, answer := 0 }]
     (by decide) (fun h => absurd h.1 (by decide)) (by decide),
   (init_retry (fun i => if i = 3 then 0 else 0xfa) 3).2.2.2.2.2.2.2.1 (by decide),
   by decide,
   ((init_retry (fun _ => 0) 3).2.2.2.2.2.2.2.2 (by decide)).1,
   ((init_retry (fun _ => 0) 3).2.2.2.2.2.2.2.2 (by decide)).2.2⟩

/-! ### C12 -/

set_option maxRecDepth 100000 in
theorem parity_all_bytes : ∀ ch, ch < 256 →
    (ps2_write_1_op ch = ps2_write_2_op ch ∧
     ps2_write_1_frame ch = ps2_write_2_frame ch ∧
     (ps2_write_1_frame ch).count 1 % 2 = 1 ∧
     (ps2_write_1_op ch = 1 ↔ (data_bits 8 ch).count 1 % 2 = 0) ∧
     (ps2_write_1_op ch = 0 ↔ (data_bits 8 ch).count 1 % 2 = 1)) := by
  decide

/-- C12 (odd parity). For every byte `ch` in 0..255 the parity bit `op` computed by
`ps2_write_1` and by `ps2_write_2` is the same, both routines put the same nine
levels on the data line, the number of 1 bits among the eight data bits and the
parity bit is odd, and `op` is 1 exactly when `ch` has an even number of 1 bits
(0 otherwise). -/
theorem odd_parity (ch : Nat) (h : ch < 256) :
    ps2_write_1_op ch = ps2_write_2_op ch ∧
    ps2_write_1_frame ch = ps2_write_2_frame ch ∧
    (ps2_write_1_frame ch).count 1 % 2 = 1 ∧
    (ps2_write_1_op ch = 1 ↔ (data_bits 8 ch).count 1 % 2 = 0) ∧
    (ps2_write_1_op ch = 0 ↔ (data_bits 8 ch).count 1 % 2 = 1) :=
  parity_all_bytes ch h

/-- The parity of the reset command 0xFF (eight 1 bits) is 1 and that of the
enable command 0xF4 (five 1 bits) is 0. -/
theorem odd_parity_witness :
    (ps2_write_1_op 0xff = 1 ∧ ps2_write_1_frame 0xff = [1, 1, 1, 1, 1, 1, 1, 1, 1]) ∧
    (ps2_write_2_op 0xf4 = 0 ∧ ps2_write_2_frame 0xf4 = [0, 0, 1, 0, 1, 1, 1, 1, 0]) :=
  ⟨⟨((odd_parity 0xff (by decide)).2.2.2.1).mpr (by decide), by decide⟩,
   ⟨(odd_parity 0xf4 (by decide)).1 ▸ ((odd_parity 0xf4 (by decide)).2.2.2.2).mpr (by decide),
    by decide⟩⟩

/-! ### C18 -/

theorem parse_loop_packets : ∀ (packets : List (List Nat)) (fuel : Nat) (u : Uart) (a : Accum),
    u.pending < fuel → reads_packets packets u = true →
    parse_loop fuel u a = some (uart_after_packets packets u, packets.foldl accumulate a) := by
  intro packets
  induction packets with
  | nil =>
    intro fuel u a hf hr
    obtain ⟨f, rfl⟩ : ∃ f, fuel = f + 1 := ⟨fuel - 1, by omega⟩
    simp only [reads_packets, decide_eq_true_eq] at hr
    unfold parse_loop
    dsimp only
    rw [if_neg (by omega)]
    rfl
  | cons p ps ih =>
    intro fuel u a hf hr
    obtain ⟨f, rfl⟩ : ∃ f, fuel = f + 1 := ⟨fuel - 1, by omega⟩
    simp only [reads_packets, Bool.and_eq_true, decide_eq_true_eq] at hr
    obtain ⟨⟨hp, h3⟩, hrest⟩ := hr
    have hlen : (read_packet u).1.length = 3 := by rw [hp]; exact h3
    unfold parse_loop
    dsimp only
    rw [if_pos (by omega), if_pos hlen]
    have hpend := read_packet_pending u
    rw [ih f (read_packet u).2 (accumulate a (read_packet u).1) (by omega) hrest, hp]
    rfl

theorem toInt8_add_left (x y : Int) : toInt8 (toInt8 x + y) = toInt8 (x + y) := by
  unfold toInt8
  omega

theorem toInt8_sub_left (x y : Int) : toInt8 (toInt8 x - y) = toInt8 (x - y) := by
  unfold toInt8
  omega

theorem foldl_accumulate_is_recv : ∀ (packets : List (List Nat)) (a : Accum),
    packets ≠ [] → (packets.foldl accumulate a).is_recv = true := by
  intro packets
  induction packets with
  | nil => intro a h; exact absurd rfl h
  | cons p ps ih =>
    intro a _
    rw [List.foldl_cons]
    cases ps with
    | nil => rfl
    | cons q qs => exact ih _ (by simp)

theorem foldl_accumulate_dx : ∀ (packets : List (List Nat)) (a : Accum),
    packets ≠ [] → (packets.foldl accumulate a).dx = toInt8 (a.dx + sum_byte 1 packets) := by
  intro packets
  induction packets with
  | nil => intro a h; exact absurd rfl h
  | cons p ps ih =>
    intro a _
    rw [List.foldl_cons]
    cases ps with
    | nil => simp [accumulate, sum_byte]
    | cons q qs =>
      rw [ih _ (by simp)]
      show toInt8 (toInt8 (a.dx + ((p.getD 1 0 : Nat) : Int)) + sum_byte 1 (q :: qs)) = _
      rw [toInt8_add_left]
      show _ = toInt8 (a.dx + (((p.getD 1 0 : Nat) : Int) + sum_byte 1 (q :: qs)))
      rw [Int.add_assoc]

theorem foldl_accumulate_dy : ∀ (packets : List (List Nat)) (a : Accum),
    packets ≠ [] → (packets.foldl accumulate a).dy = toInt8 (a.dy - sum_byte 2 packets) := by
  intro packets
  induction packets with
  | nil => intro a h; exact absurd rfl h
  | cons p ps ih =>
    intro a _
    rw [List.foldl_cons]
    cases ps with
    | nil => simp [accumulate, sum_byte]
    | cons q qs =>
      rw [ih _ (by simp)]
      show toInt8 (toInt8 (a.dy - ((p.getD 2 0 : Nat) : Int)) - sum_byte 2 (q :: qs)) = _
      rw [toInt8_sub_left]
      show _ = toInt8 (a.dy - (((p.getD 2 0 : Nat) : Int) + sum_byte 2 (q :: qs)))
      rw [Int.sub_sub]

theorem low3_or_mod (x b y : Nat) : ((x ||| b) % 256 ||| y) &&& 7 = (x ||| (b ||| y)) &&& 7 := by
  apply Nat.eq_of_testBit_eq
  intro i
  rw [show (256 : Nat) = 2 ^ 8 from rfl, show (7 : Nat) = 2 ^ 3 - 1 from rfl]
  simp only [Nat.testBit_and, Nat.testBit_or, Nat.testBit_mod_two_pow,
    Nat.testBit_two_pow_sub_one]
  by_cases h : i < 3
  · have h8 : i < 8 := by omega
    simp [h, h8, Bool.or_assoc]
  · simp [h]

theorem foldl_accumulate_buttons : ∀ (packets : List (List Nat)) (a : Accum),
    (packets.foldl accumulate a).buttons &&& 7 = (a.buttons ||| buttons_or packets) &&& 7 := by
  intro packets
  induction packets with
  | nil => intro a; simp [buttons_or]
  | cons p ps ih =>
    intro a
    rw [List.foldl_cons, ih]
    show ((a.buttons ||| p.getD 0 0) % 256 ||| buttons_or ps) &&& 7 = _
    rw [low3_or_mod]
    rfl

/-- Whatever branch is taken, a cycle that received packets ends with the regular
report, whose button mask is the accumulated buttons masked to two bits. -/
theorem emit_regular_report (is_midkey is_pan : Bool) (a : Accum) (hr : a.is_recv = true) :
    ∃ m p pre x y v h, emit true is_midkey is_pan a =
      (m, p, pre ++ [TpEvent.mouse_report ((a.buttons &&& 7) &&& 3) x y v h]) := by
  by_cases hm : (a.buttons &&& 7) &&& 4 = 0
  · rw [emit_no_middle _ _ _ _ hr hm]
    exact ⟨_, _, _, _, _, _, _, rfl⟩
  · by_cases hxy : a.dx ≠ 0 ∨ a.dy ≠ 0
    · rw [emit_middle_pan _ _ _ _ hr hm hxy]
      exact ⟨_, _, [], _, _, _, _, rfl⟩
    · have hx : a.dx = 0 := by
        by_contra h; exact hxy (Or.inl h)
      have hy : a.dy = 0 := by
        by_contra h; exact hxy (Or.inr h)
      rw [emit_middle_still _ _ _ _ hr hm hx hy]
      exact ⟨_, _, [], _, _, _, _, rfl⟩

/-- C18 (packet accumulation). For every non-empty list of complete 3-byte packets
read in one poll cycle (receiver open, data ready; the passes of the loop
assemble exactly these packets and then find nothing), the loop returns with
`is_recv` set, the accumulated buttons masked to the low 3 bits equal to the
bitwise OR of the packets' first bytes masked to the low 3 bits, `dx` equal to
the sum of the second bytes and `dy` to the negated sum of the third bytes, both
wrapped to signed 8 bits; and with the host connected the cycle ends with the
regular mouse report, whose button mask is that OR masked to the low 2 bits. -/
theorem packet_accumulation (env : PollEnv) (st : TpState) (packets : List (List Nat))
    (hne : packets ≠ []) (hfd : ¬ st.uart1_fd < 0) (hs : env.select_result > 0)
    (hreads : reads_packets packets st.uart = true) :
    ∃ u a, parse_loop (st.uart.pending + 1) st.uart Accum.zero = some (u, a) ∧
      a.is_recv = true ∧
      a.buttons &&& 7 = buttons_or packets &&& 7 ∧
      a.dx = toInt8 (sum_byte 1 packets) ∧
      a.dy = toInt8 (-sum_byte 2 packets) ∧
      (env.is_usb_connected = true →
        ∃ st1 pre x y v h, poll_trackpoint env st =
          some (st1, pre ++ [TpEvent.mouse_report (buttons_or packets &&& 3) x y v h])) := by
  have hp := parse_loop_packets packets (st.uart.pending + 1) st.uart Accum.zero
    (Nat.lt_succ_self _) hreads
  have hrecv := foldl_accumulate_is_recv packets Accum.zero hne
  have hb : (packets.foldl accumulate Accum.zero).buttons &&& 7 = buttons_or packets &&& 7 := by
    rw [foldl_accumulate_buttons]
    simp [Accum.zero]
  refine ⟨_, _, hp, hrecv, hb, ?_, ?_, ?_⟩
  · rw [foldl_accumulate_dx packets Accum.zero hne]
    simp [Accum.zero]
  · rw [foldl_accumulate_dy packets Accum.zero hne]
    simp [Accum.zero]
  · intro hconn
    obtain ⟨m, p, pre, x, y, v, h, he⟩ :=
      emit_regular_report st.is_midkey st.is_pan (packets.foldl accumulate Accum.zero) hrecv
    rw [poll_trackpoint_ready env st _ _ hfd hs hp, hconn, he]
    have h3 : ((packets.foldl accumulate Accum.zero).buttons &&& 7) &&& 3
        = buttons_or packets &&& 3 := by
      rw [hb, Nat.and_assoc]
      rfl
    rw [h3]
    exact ⟨_, _, _, _, _, _, rfl⟩

/-- Two packets in the queue, left button with motion `(100, 3)` and right button
with motion `(100, 255)`: buttons `0b011`, `dx = 200` wrapped to -56, and
`dy = -(3 + 255)` wrapped to -2. -/
theorem packet_accumulation_witness :
    parse_loop (Uart.pending { rx := [9, 100, 3, 10, 100, 255], wire := [] } + 1)
        { rx := [9, 100, 3, 10, 100, 255], wire := [] } Accum.zero
      = some ({ rx := [], wire := [] }, { buttons := 11, dx := -56, dy := -2, is_recv := true }) ∧
    ∃ u a, parse_loop (Uart.pending { rx := [9, 100, 3, 10, 100, 255], wire := [] } + 1)
        { rx := [9, 100, 3, 10, 100, 255], wire := [] } Accum.zero = some (u, a) ∧
      a.buttons &&& 7 = 3 ∧ a.dx = -56 ∧ a.dy = -2 := by
  refine ⟨by decide, ?_⟩
  obtain ⟨u, a, h1, _, h3, h4, h5, _⟩ := packet_accumulation env_ready
    (tp_idle { rx := [9, 100, 3, 10, 100, 255], wire := [] })
    [[9, 100, 3], [10, 100, 255]] (by decide) (by decide) (by decide) (by decide)
  exact ⟨u, a, h1, h3.trans (by decide), h4.trans (by decide), h5.trans (by decide)⟩

end Trackpoint
